import Mathlib

/-!
Verification of the version-alignment resolver and manifest rewriter of
scripts/adjust-torch-versions.py.

The embedding works over `List Char`; Python `str` values are modelled as
their character lists, and the public functions are thin `String` wrappers
keeping the source's names.  Character classes (`\w`, `\d`, whitespace) are
modelled over their ASCII meaning, which covers every character that the
script's own data (package names, version numbers, requirement lines) can
contain.  `re.sub(rf"\b{lib}(?![-_\w]).*", repl, req)` is modelled as: find
the leftmost position where `lib` occurs starting at a word boundary and not
followed by `[-_\w]`, and replace from there to the end of the line (`.*` is
greedy and requirement lines contain no newline).
-/

/-- ASCII model of the `\w` regex class: letters, digits and underscore. -/
def isWordChar (c : Char) : Bool := c.isAlphanum || c = '_'

/-- The negative-lookahead class `[-_\w]` of the substitution pattern. -/
def lookChar (c : Char) : Bool := c = '-' || c = '_' || isWordChar c

/-- Characters matched by the `[\.\d]` version-extraction pattern. -/
def isDotDigit (c : Char) : Bool := c = '.' || c.isDigit

/-- Model of Python `str.strip()` whitespace (ASCII part plus the two
Latin-1 whitespace code points). -/
def isSpace (c : Char) : Bool :=
  c = ' ' || c = '\t' || c = '\n' || c = '\x0b' || c = '\x0c' || c = '\r' ||
  c = '\x1c' || c = '\x1d' || c = '\x1e' || c = '\x1f' || c = '\x85' || c = '\xa0'

/-- Python `str.lstrip()`. -/
def pyLStrip (s : List Char) : List Char := s.dropWhile isSpace

/-- Python `str.rstrip()`. -/
def pyRStrip (s : List Char) : List Char := (s.reverse.dropWhile isSpace).reverse

/-- Python `str.strip()`. -/
def pyStrip (s : List Char) : List Char := pyRStrip (pyLStrip s)

/-- Decimal digits of a natural number, least significant last; fuel-driven
so that it reduces definitionally (`Char.ofNat (48 + d)` is the digit `d`).
Models Python `str(int)` for non-negative values. -/
def natToDigitsAux : Nat → Nat → List Char
  | 0, _ => []
  | fuel + 1, n =>
    if n < 10 then [Char.ofNat (48 + n)]
    else natToDigitsAux fuel (n / 10) ++ [Char.ofNat (48 + n % 10)]

/-- Decimal rendering of a natural number, as Python `str(int)` does. -/
def natToDigits (n : Nat) : List Char := natToDigitsAux (n + 1) n

/-- Model of Python `int(s)` on the digit-only strings produced by splitting
a `[\.\d]+` run on dots: succeeds exactly on non-empty all-digit strings. -/
def parseNat (cs : List Char) : Option Nat :=
  if cs ≠ [] ∧ cs.all Char.isDigit then
    some (cs.foldl (fun a c => a * 10 + (c.toNat - 48)) 0)
  else none

/-- Python `s.split(".")`. -/
def splitDots : List Char → List (List Char)
  | [] => [[]]
  | c :: rest =>
    if c = '.' then [] :: splitDots rest
    else
      match splitDots rest with
      | [] => [[c]]
      | p :: ps => (c :: p) :: ps

/-- `ver_major, ver_minor, ver_bugfix = map(int, torch_ver.split("."))`:
succeeds exactly when the run splits into three integer components. -/
def parseVer3 (run : List Char) : Option (Nat × Nat × Nat) :=
  match splitDots run with
  | [a, b, c] =>
    match parseNat a, parseNat b, parseNat c with
    | some x, some y, some z => some (x, y, z)
    | _, _, _ => none
  | _ => none

/-- `re.search(r"([\.\d]+)", s)`: the leftmost maximal run of dots and
digits, `none` when no such character occurs (Python raises there, because
`.groups()` is called on `None`). -/
def extractRun : List Char → Option (List Char)
  | [] => none
  | c :: rest =>
    if isDotDigit c then some ((c :: rest).takeWhile isDotDigit)
    else extractRun rest

/-- `ver[:-1] if ver[-1] == "." else ver` in `find_latest` (the run handed
to it is never empty, so the subscript never faults). -/
def stripDot (s : List Char) : List Char :=
  if s.getLast? = some '.' then s.dropLast else s

/-- `"{a}.{b}.{c}"` built by `".".join(map(str, arr))`. -/
def renderVer (a b c : Nat) : List Char :=
  natToDigits a ++ '.' :: (natToDigits b ++ '.' :: natToDigits c)

/-- The errors the script can raise while resolving a version: `parseError`
stands for the `AttributeError`/`ValueError` raised by failed extraction or
`int` conversion, `invalidVersion` for `ValueError(f"Invalid torch version:
{torch_version}")`. -/
inductive VerError where
  | parseError : List Char → VerError
  | invalidVersion : List Char → VerError
deriving DecidableEq, Repr

/-- First-match lookup in a `_VERSION_EXCEPTIONS` table. -/
def lookupExc : List (List Char × List Char) → List Char → Option (List Char)
  | [], _ => none
  | (k, v) :: rest, s => if s = k then some v else lookupExc rest s

/-- `_VERSION_EXCEPTIONS` of `_determine_torchaudio`. -/
def taExc : List (List Char × List Char) := [("1.8.2".data, "0.9.1".data)]

/-- `_VERSION_EXCEPTIONS` of `_determine_torchtext`. -/
def ttExc : List (List Char × List Char) :=
  [("2.0.1".data, "0.15.2".data), ("2.0.0".data, "0.15.1".data),
   ("1.8.2".data, "0.9.1".data)]

/-- `_VERSION_EXCEPTIONS` of `_determine_torchvision`. -/
def tvExc : List (List Char × List Char) :=
  [("2.0.1".data, "0.15.2".data), ("2.0.0".data, "0.15.1".data),
   ("1.10.2".data, "0.11.3".data), ("1.10.1".data, "0.11.2".data),
   ("1.10.0".data, "0.11.1".data), ("1.8.2".data, "0.9.1".data)]

/-- Body of `_determine_torchaudio` over character lists. -/
def determineTACore (s : List Char) : Except VerError (List Char) :=
  match extractRun s with
  | none => .error (.parseError "no version match".data)
  | some run =>
    match lookupExc taExc run with
    | some v => .ok v
    | none =>
      match parseVer3 run with
      | none => .error (.parseError "not a three-component version".data)
      | some (maj, mi, fx) =>
        .ok (renderVer (if maj = 1 then 0 else maj) mi fx)

/-- Body of `_determine_torchtext` over character lists. -/
def determineTTCore (s : List Char) : Except VerError (List Char) :=
  match extractRun s with
  | none => .error (.parseError "no version match".data)
  | some run =>
    match lookupExc ttExc run with
    | some v => .ok v
    | none =>
      match parseVer3 run with
      | none => .error (.parseError "not a three-component version".data)
      | some (maj, mi, fx) =>
        if maj = 1 then .ok (renderVer 0 (mi + 1) fx)
        else if maj = 2 then
          if 3 ≤ mi then .ok (renderVer 0 18 0)
          else .ok (renderVer 0 (mi + 15) fx)
        else .error (.invalidVersion ("Invalid torch version: ".data ++ s))

/-- Body of `_determine_torchvision` over character lists. -/
def determineTVCore (s : List Char) : Except VerError (List Char) :=
  match extractRun s with
  | none => .error (.parseError "no version match".data)
  | some run =>
    match lookupExc tvExc run with
    | some v => .ok v
    | none =>
      match parseVer3 run with
      | none => .error (.parseError "not a three-component version".data)
      | some (maj, mi, fx) =>
        if maj = 1 then .ok (renderVer 0 (mi + 1) fx)
        else if maj = 2 then .ok (renderVer 0 (mi + 15) fx)
        else .error (.invalidVersion ("Invalid torch version: ".data ++ s))

/-- `_determine_torchaudio`. -/
def _determine_torchaudio (s : String) : Except VerError String :=
  (determineTACore s.data).map String.mk

/-- `_determine_torchtext`. -/
def _determine_torchtext (s : String) : Except VerError String :=
  (determineTTCore s.data).map String.mk

/-- `_determine_torchvision`. -/
def _determine_torchvision (s : String) : Except VerError String :=
  (determineTVCore s.data).map String.mk

/-- Body of `find_latest`: normalize the version, then build the alignment
map; the companion values are evaluated in the order the dict literal writes
them (torchvision, torchtext, torchaudio), so the first failing companion's
error propagates. -/
def findLatestCore (s : List Char) : Except VerError (List (List Char × List Char)) :=
  match extractRun s with
  | none => .error (.parseError "no version match".data)
  | some run =>
    let ver := stripDot run
    (determineTVCore ver).bind fun tv =>
    (determineTTCore ver).bind fun tt =>
    (determineTACore ver).bind fun ta =>
    .ok [("torch".data, ver), ("torchvision".data, tv),
         ("torchtext".data, tt), ("torchaudio".data, ta)]

/-- `find_latest`, keeping the dict's insertion order as an association
list. -/
def find_latest (s : String) : Except VerError (List (String × String)) :=
  (findLatestCore s.data).map (fun l => l.map fun p => (String.mk p.1, String.mk p.2))

-- Sanity checks against the doctests of the source file.
theorem doctest_torchaudio :
    _determine_torchaudio "1.9.0" = .ok "0.9.0" ∧
    _determine_torchaudio "2.4.1" = .ok "2.4.1" ∧
    _determine_torchaudio "1.8.2" = .ok "0.9.1" := by
  exact ⟨rfl, rfl, rfl⟩

theorem doctest_torchtext :
    _determine_torchtext "1.9.0" = .ok "0.10.0" ∧
    _determine_torchtext "2.4.1" = .ok "0.18.0" ∧
    _determine_torchtext "1.8.2" = .ok "0.9.1" := by
  exact ⟨rfl, rfl, rfl⟩

theorem doctest_torchvision :
    _determine_torchvision "1.9.0" = .ok "0.10.0" ∧
    _determine_torchvision "2.4.1" = .ok "0.19.1" ∧
    _determine_torchvision "2.0.1" = .ok "0.15.2" := by
  exact ⟨rfl, rfl, rfl⟩

theorem doctest_find_latest :
    find_latest "2.1.0" = .ok
      [("torch", "2.1.0"), ("torchvision", "0.16.0"),
       ("torchtext", "0.16.0"), ("torchaudio", "2.1.0")] := by
  rfl

/-! ### Decimal rendering and parsing round-trip -/

theorem natToDigitsAux_fuel (m : Nat) : ∀ f, m < f → natToDigitsAux f m = natToDigits m := by
  induction m using Nat.strong_induction_on with
  | _ m ih =>
    intro f hf
    match f, hf with
    | f' + 1, _ =>
      by_cases h10 : m < 10
      · simp [natToDigitsAux, natToDigits, h10]
      · have hm : 10 ≤ m := Nat.le_of_not_lt h10
        have hdiv : m / 10 < m := Nat.div_lt_self (by omega) (by omega)
        have h1 : natToDigitsAux (f' + 1) m =
            natToDigitsAux f' (m / 10) ++ [Char.ofNat (48 + m % 10)] := by
          simp [natToDigitsAux, h10]
        have h2 : natToDigits m =
            natToDigitsAux m (m / 10) ++ [Char.ofNat (48 + m % 10)] := by
          simp [natToDigits, natToDigitsAux, h10]
        rw [h1, h2, ih (m / 10) hdiv f' (by omega), ih (m / 10) hdiv m (by omega)]

theorem natToDigits_lt {n : Nat} (h : n < 10) :
    natToDigits n = [Char.ofNat (48 + n)] := by
  simp [natToDigits, natToDigitsAux, h]

theorem natToDigits_ge {n : Nat} (h : 10 ≤ n) :
    natToDigits n = natToDigits (n / 10) ++ [Char.ofNat (48 + n % 10)] := by
  have h1 : natToDigits n = natToDigitsAux n (n / 10) ++ [Char.ofNat (48 + n % 10)] := by
    simp [natToDigits, natToDigitsAux, Nat.not_lt.mpr h]
  rw [h1, natToDigitsAux_fuel (n / 10) n (by
    exact Nat.lt_of_lt_of_le (Nat.div_lt_self (by omega) (by omega)) (Nat.le_refl n))]

theorem digitChar_isDigit : ∀ d, d < 10 → (Char.ofNat (48 + d)).isDigit = true := by decide

theorem digitChar_toNat : ∀ d, d < 10 → (Char.ofNat (48 + d)).toNat - 48 = d := by decide

theorem natToDigits_ne_nil (n : Nat) : natToDigits n ≠ [] := by
  rcases Nat.lt_or_ge n 10 with h | h
  · rw [natToDigits_lt h]; simp
  · rw [natToDigits_ge h]; simp

theorem natToDigits_digits (n : Nat) : ∀ c ∈ natToDigits n, c.isDigit = true := by
  induction n using Nat.strong_induction_on with
  | _ n ih =>
    rcases Nat.lt_or_ge n 10 with h | h
    · rw [natToDigits_lt h]
      intro c hc
      simp only [List.mem_singleton] at hc
      subst hc
      exact digitChar_isDigit n h
    · rw [natToDigits_ge h]
      intro c hc
      rcases List.mem_append.mp hc with hc | hc
      · exact ih (n / 10) (Nat.div_lt_self (by omega) (by omega)) c hc
      · simp only [List.mem_singleton] at hc
        subst hc
        exact digitChar_isDigit (n % 10) (Nat.mod_lt _ (by omega))

theorem foldl_natToDigits (n : Nat) :
    (natToDigits n).foldl (fun a c => a * 10 + (c.toNat - 48)) 0 = n := by
  induction n using Nat.strong_induction_on with
  | _ n ih =>
    rcases Nat.lt_or_ge n 10 with h | h
    · rw [natToDigits_lt h]
      simp only [List.foldl_cons, List.foldl_nil]
      have := digitChar_toNat n h
      omega
    · rw [natToDigits_ge h, List.foldl_append]
      rw [ih (n / 10) (Nat.div_lt_self (by omega) (by omega))]
      simp only [List.foldl_cons, List.foldl_nil]
      have := digitChar_toNat (n % 10) (Nat.mod_lt _ (by omega))
      omega

theorem parseNat_natToDigits (n : Nat) : parseNat (natToDigits n) = some n := by
  have h2 : (natToDigits n).all Char.isDigit = true := by
    rw [List.all_eq_true]
    intro c hc
    exact natToDigits_digits n c hc
  simp only [parseNat]
  rw [if_pos ⟨natToDigits_ne_nil n, h2⟩, foldl_natToDigits]

theorem natToDigits_no_dot (n : Nat) : '.' ∉ natToDigits n := by
  intro h
  exact absurd (natToDigits_digits n _ h) (by decide)

theorem splitDots_no_dot : ∀ (xs : List Char), '.' ∉ xs → splitDots xs = [xs]
  | [], _ => rfl
  | c :: rest, h => by
    have hc : ¬ c = '.' := fun e => h (by simp [e])
    have hr := splitDots_no_dot rest (fun m => h (List.mem_cons_of_mem _ m))
    simp [splitDots, hc, hr]

theorem splitDots_append (xs ys : List Char) (h : '.' ∉ xs) :
    splitDots (xs ++ '.' :: ys) = xs :: splitDots ys := by
  induction xs with
  | nil => simp [splitDots]
  | cons c rest ih =>
    have hc : ¬ c = '.' := fun e => h (by simp [e])
    have h' : '.' ∉ rest := fun m => h (List.mem_cons_of_mem _ m)
    rcases hs : splitDots (rest ++ '.' :: ys) with _ | ⟨p, ps⟩
    · rw [ih h'] at hs; cases hs
    · rw [ih h'] at hs
      injection hs with hp hps
      subst hp; subst hps
      simp [splitDots, hc, ih h']

theorem parseVer3_renderVer (a b c : Nat) : parseVer3 (renderVer a b c) = some (a, b, c) := by
  unfold parseVer3 renderVer
  rw [splitDots_append _ _ (natToDigits_no_dot a),
      splitDots_append _ _ (natToDigits_no_dot b),
      splitDots_no_dot _ (natToDigits_no_dot c)]
  simp [parseNat_natToDigits]

/-! ### Facts about extraction, normalization and the exception tables -/

theorem extractRun_self (s : List Char) (h1 : s ≠ []) (h2 : ∀ c ∈ s, isDotDigit c = true) :
    extractRun s = some s := by
  match s, h1 with
  | c :: rest, _ =>
    have hc := h2 c (List.mem_cons_self c rest)
    simp only [extractRun, hc, if_pos]
    rw [List.takeWhile_eq_self_iff.mpr h2]

theorem extractRun_spec : ∀ (s r : List Char), extractRun s = some r →
    r ≠ [] ∧ ∀ c ∈ r, isDotDigit c = true
  | [], r => by simp [extractRun]
  | c :: rest, r => by
    by_cases hc : isDotDigit c = true
    · intro h
      simp only [extractRun, hc, if_pos, Option.some.injEq] at h
      subst h
      refine ⟨by simp [List.takeWhile_cons_of_pos hc], ?_⟩
      intro x hx
      exact List.mem_takeWhile_imp hx
    · intro h
      simp only [extractRun, hc, if_neg, Bool.false_eq_true] at h
      exact extractRun_spec rest r h

theorem stripDot_sub (s : List Char) (c : Char) (h : c ∈ stripDot s) : c ∈ s := by
  unfold stripDot at h
  by_cases hl : s.getLast? = some '.'
  · rw [if_pos hl] at h
    exact List.mem_of_mem_dropLast h
  · rw [if_neg hl] at h
    exact h

theorem getLast?_renderVer (a b c : Nat) :
    (renderVer a b c).getLast? = (natToDigits c).getLast? := by
  unfold renderVer
  rw [List.getLast?_append_of_ne_nil _ (by simp),
      show ('.' :: (natToDigits b ++ '.' :: natToDigits c)) =
        ['.'] ++ (natToDigits b ++ '.' :: natToDigits c) from rfl,
      List.getLast?_append_of_ne_nil _ (by simp),
      List.getLast?_append_of_ne_nil _ (by simp),
      show ('.' :: natToDigits c) = ['.'] ++ natToDigits c from rfl,
      List.getLast?_append_of_ne_nil _ (natToDigits_ne_nil c)]

theorem renderVer_ne_nil (a b c : Nat) : renderVer a b c ≠ [] := by
  intro h
  exact natToDigits_ne_nil a (List.append_eq_nil.mp h).1

theorem renderVer_dotdigit (a b c : Nat) : ∀ ch ∈ renderVer a b c, isDotDigit ch = true := by
  have isdig : ∀ n (x : Char), x ∈ natToDigits n → isDotDigit x = true := by
    intro n x hx
    simp [isDotDigit, natToDigits_digits n x hx]
  intro ch h
  unfold renderVer at h
  simp only [List.mem_append, List.mem_cons] at h
  rcases h with h | rfl | h | rfl | h
  · exact isdig a ch h
  · decide
  · exact isdig b ch h
  · decide
  · exact isdig c ch h

theorem stripDot_renderVer (a b c : Nat) : stripDot (renderVer a b c) = renderVer a b c := by
  unfold stripDot
  rw [getLast?_renderVer, if_neg]
  intro hx
  exact natToDigits_no_dot c (List.mem_of_getLast?_eq_some hx)

theorem lookupExc_mem : ∀ (t : List (List Char × List Char)) (s v : List Char),
    lookupExc t s = some v → (s, v) ∈ t
  | [], s, v => by simp [lookupExc]
  | (k, w) :: rest, s, v => by
    by_cases h : s = k
    · subst h
      intro hv
      have hv' : some w = some v := by simpa [lookupExc] using hv
      injection hv' with hw
      subst hw
      exact List.mem_cons_self _ _
    · intro hv
      simp only [lookupExc, if_neg h] at hv
      exact List.mem_cons_of_mem _ (lookupExc_mem rest s v hv)

theorem ne_key_of_parse {r key : List Char} {t₁ t₂ : Nat × Nat × Nat}
    (hr : parseVer3 r = some t₁) (hk : parseVer3 key = some t₂) (hne : t₁ ≠ t₂) :
    r ≠ key := by
  intro e
  subst e
  rw [hr] at hk
  exact hne (Option.some.inj hk)

theorem lookup_ta_none {r : List Char} (h : r ≠ "1.8.2".data) :
    lookupExc taExc r = none := by
  simp only [taExc, lookupExc, if_neg h]

theorem lookup_tt_none {r : List Char} (h1 : r ≠ "2.0.1".data) (h2 : r ≠ "2.0.0".data)
    (h3 : r ≠ "1.8.2".data) : lookupExc ttExc r = none := by
  simp only [ttExc, lookupExc, if_neg h1, if_neg h2, if_neg h3]

theorem lookup_tv_none {r : List Char} (h1 : r ≠ "2.0.1".data) (h2 : r ≠ "2.0.0".data)
    (h3 : r ≠ "1.10.2".data) (h4 : r ≠ "1.10.1".data) (h5 : r ≠ "1.10.0".data)
    (h6 : r ≠ "1.8.2".data) : lookupExc tvExc r = none := by
  simp only [tvExc, lookupExc, if_neg h1, if_neg h2, if_neg h3, if_neg h4, if_neg h5,
    if_neg h6]

/-! ### Evaluation of the companion rules on canonical versions -/

theorem determineTACore_render (a b c : Nat) (h : lookupExc taExc (renderVer a b c) = none) :
    determineTACore (renderVer a b c) = .ok (renderVer (if a = 1 then 0 else a) b c) := by
  simp only [determineTACore,
    extractRun_self _ (renderVer_ne_nil a b c) (renderVer_dotdigit a b c), h,
    parseVer3_renderVer]

theorem determineTTCore_render (a b c : Nat) (h : lookupExc ttExc (renderVer a b c) = none) :
    determineTTCore (renderVer a b c) =
      (if a = 1 then .ok (renderVer 0 (b + 1) c)
       else if a = 2 then
         if 3 ≤ b then .ok (renderVer 0 18 0) else .ok (renderVer 0 (b + 15) c)
       else .error (.invalidVersion ("Invalid torch version: ".data ++ renderVer a b c))) := by
  simp only [determineTTCore,
    extractRun_self _ (renderVer_ne_nil a b c) (renderVer_dotdigit a b c), h,
    parseVer3_renderVer]

theorem determineTVCore_render (a b c : Nat) (h : lookupExc tvExc (renderVer a b c) = none) :
    determineTVCore (renderVer a b c) =
      (if a = 1 then .ok (renderVer 0 (b + 1) c)
       else if a = 2 then .ok (renderVer 0 (b + 15) c)
       else .error (.invalidVersion ("Invalid torch version: ".data ++ renderVer a b c))) := by
  simp only [determineTVCore,
    extractRun_self _ (renderVer_ne_nil a b c) (renderVer_dotdigit a b c), h,
    parseVer3_renderVer]

/-- The canonical string `"{a}.{b}.{c}"` as a `String`. -/
def renderVerS (a b c : Nat) : String := String.mk (renderVer a b c)

/-! ### Claims about the version rules -/

/-- C1: `resolve("2.4.1")` gives torchaudio `"2.4.1"`, torchtext `"0.18.0"`,
torchvision `"0.19.1"`; and for every canonical three-component version
`2.mi.fx` with `mi ≥ 3` the torchtext fallback plateaus at `"0.18.0"`, the
torchvision fallback gives `0.(mi+15).fx`, and torchaudio returns the
version unchanged (such a version is never in an exception table). -/
theorem claim_c1 (mi fx : Nat) (hmi : 3 ≤ mi) :
    find_latest "2.4.1" = .ok
      [("torch", "2.4.1"), ("torchvision", "0.19.1"),
       ("torchtext", "0.18.0"), ("torchaudio", "2.4.1")]
    ∧ _determine_torchtext (renderVerS 2 mi fx) = .ok "0.18.0"
    ∧ _determine_torchvision (renderVerS 2 mi fx) = .ok (renderVerS 0 (mi + 15) fx)
    ∧ _determine_torchaudio (renderVerS 2 mi fx) = .ok (renderVerS 2 mi fx) := by
  have hp := parseVer3_renderVer 2 mi fx
  have hk201 : parseVer3 "2.0.1".data = some (2, 0, 1) := rfl
  have hk200 : parseVer3 "2.0.0".data = some (2, 0, 0) := rfl
  have hk1102 : parseVer3 "1.10.2".data = some (1, 10, 2) := rfl
  have hk1101 : parseVer3 "1.10.1".data = some (1, 10, 1) := rfl
  have hk1100 : parseVer3 "1.10.0".data = some (1, 10, 0) := rfl
  have hk182 : parseVer3 "1.8.2".data = some (1, 8, 2) := rfl
  have hne201 : renderVer 2 mi fx ≠ "2.0.1".data :=
    ne_key_of_parse hp hk201 (by intro h; simp only [Prod.mk.injEq] at h; omega)
  have hne200 : renderVer 2 mi fx ≠ "2.0.0".data :=
    ne_key_of_parse hp hk200 (by intro h; simp only [Prod.mk.injEq] at h; omega)
  have hne1102 : renderVer 2 mi fx ≠ "1.10.2".data :=
    ne_key_of_parse hp hk1102 (by intro h; simp only [Prod.mk.injEq] at h; omega)
  have hne1101 : renderVer 2 mi fx ≠ "1.10.1".data :=
    ne_key_of_parse hp hk1101 (by intro h; simp only [Prod.mk.injEq] at h; omega)
  have hne1100 : renderVer 2 mi fx ≠ "1.10.0".data :=
    ne_key_of_parse hp hk1100 (by intro h; simp only [Prod.mk.injEq] at h; omega)
  have hne182 : renderVer 2 mi fx ≠ "1.8.2".data :=
    ne_key_of_parse hp hk182 (by intro h; simp only [Prod.mk.injEq] at h; omega)
  refine ⟨rfl, ?_, ?_, ?_⟩
  · show (determineTTCore (renderVer 2 mi fx)).map String.mk = .ok "0.18.0"
    rw [determineTTCore_render 2 mi fx (lookup_tt_none hne201 hne200 hne182),
        if_neg (by decide), if_pos rfl, if_pos hmi]
    rfl
  · show (determineTVCore (renderVer 2 mi fx)).map String.mk = .ok (renderVerS 0 (mi + 15) fx)
    rw [determineTVCore_render 2 mi fx
          (lookup_tv_none hne201 hne200 hne1102 hne1101 hne1100 hne182),
        if_neg (by decide), if_pos rfl]
    rfl
  · show (determineTACore (renderVer 2 mi fx)).map String.mk = .ok (renderVerS 2 mi fx)
    rw [determineTACore_render 2 mi fx (lookup_ta_none hne182), if_neg (by decide)]
    rfl

theorem claim_c1_witness :
    find_latest "2.4.1" = .ok
      [("torch", "2.4.1"), ("torchvision", "0.19.1"),
       ("torchtext", "0.18.0"), ("torchaudio", "2.4.1")]
    ∧ _determine_torchtext (renderVerS 2 4 1) = .ok "0.18.0"
    ∧ _determine_torchvision (renderVerS 2 4 1) = .ok (renderVerS 0 (4 + 15) 1)
    ∧ _determine_torchaudio (renderVerS 2 4 1) = .ok (renderVerS 2 4 1) :=
  claim_c1 4 1 (by decide)

/-- C2: every entry of every exception table is returned verbatim, bypassing
the arithmetic fallback: all three companions map `"1.8.2"` to `"0.9.1"`,
torchtext and torchvision map `"2.0.1"` to `"0.15.2"` (their fallback would
give `"0.15.1"`), and likewise for the remaining table entries. -/
theorem claim_c2 :
    find_latest "1.8.2" = .ok
      [("torch", "1.8.2"), ("torchvision", "0.9.1"),
       ("torchtext", "0.9.1"), ("torchaudio", "0.9.1")]
    ∧ find_latest "2.0.1" = .ok
      [("torch", "2.0.1"), ("torchvision", "0.15.2"),
       ("torchtext", "0.15.2"), ("torchaudio", "2.0.1")]
    ∧ _determine_torchaudio "1.8.2" = .ok "0.9.1"
    ∧ _determine_torchtext "2.0.1" = .ok "0.15.2"
    ∧ _determine_torchtext "2.0.0" = .ok "0.15.1"
    ∧ _determine_torchtext "1.8.2" = .ok "0.9.1"
    ∧ _determine_torchvision "2.0.1" = .ok "0.15.2"
    ∧ _determine_torchvision "2.0.0" = .ok "0.15.1"
    ∧ _determine_torchvision "1.10.2" = .ok "0.11.3"
    ∧ _determine_torchvision "1.10.1" = .ok "0.11.2"
    ∧ _determine_torchvision "1.10.0" = .ok "0.11.1"
    ∧ _determine_torchvision "1.8.2" = .ok "0.9.1"
    ∧ ("0.15.2" : String) ≠ renderVerS 0 (0 + 15) 1 := by
  refine ⟨rfl, rfl, rfl, rfl, rfl, rfl, rfl, rfl, rfl, rfl, rfl, rfl, ?_⟩
  decide

/-- C7 counterexample: the torchvision exception table does not have five
entries; it has a sixth pin, `"1.8.2" → "0.9.1"`, which is neither a 2.0.x
nor a 1.10.x release. -/
theorem claim_c7_cex :
    ¬ (tvExc.length = 5) ∧ ("1.8.2".data, "0.9.1".data) ∈ tvExc ∧
      _determine_torchvision "1.8.2" = .ok "0.9.1" := by
  exact ⟨by decide, by decide, rfl⟩

/-- C7 as amended: the torchvision exception table consists of exactly six
historical pins, the five for early 2.0.x and 1.10.x releases plus one for
1.8.2, and nothing else ever hits the table. -/
theorem claim_c7_amended (r v : List Char) (h : lookupExc tvExc r = some v) :
    tvExc.length = 6
    ∧ _determine_torchvision "2.0.1" = .ok "0.15.2"
    ∧ _determine_torchvision "2.0.0" = .ok "0.15.1"
    ∧ _determine_torchvision "1.10.2" = .ok "0.11.3"
    ∧ _determine_torchvision "1.10.1" = .ok "0.11.2"
    ∧ _determine_torchvision "1.10.0" = .ok "0.11.1"
    ∧ _determine_torchvision "1.8.2" = .ok "0.9.1"
    ∧ (r = "2.0.1".data ∨ r = "2.0.0".data ∨ r = "1.10.2".data ∨ r = "1.10.1".data ∨
       r = "1.10.0".data ∨ r = "1.8.2".data) := by
  refine ⟨rfl, rfl, rfl, rfl, rfl, rfl, rfl, ?_⟩
  have hm := lookupExc_mem tvExc r v h
  simp only [tvExc, List.mem_cons, List.not_mem_nil, or_false, Prod.mk.injEq] at hm
  rcases hm with ⟨h1, _⟩ | ⟨h1, _⟩ | ⟨h1, _⟩ | ⟨h1, _⟩ | ⟨h1, _⟩ | ⟨h1, _⟩
  · exact Or.inl h1
  · exact Or.inr (Or.inl h1)
  · exact Or.inr (Or.inr (Or.inl h1))
  · exact Or.inr (Or.inr (Or.inr (Or.inl h1)))
  · exact Or.inr (Or.inr (Or.inr (Or.inr (Or.inl h1))))
  · exact Or.inr (Or.inr (Or.inr (Or.inr (Or.inr h1))))

theorem claim_c7_amended_witness :
    tvExc.length = 6
    ∧ _determine_torchvision "2.0.1" = .ok "0.15.2"
    ∧ _determine_torchvision "2.0.0" = .ok "0.15.1"
    ∧ _determine_torchvision "1.10.2" = .ok "0.11.3"
    ∧ _determine_torchvision "1.10.1" = .ok "0.11.2"
    ∧ _determine_torchvision "1.10.0" = .ok "0.11.1"
    ∧ _determine_torchvision "1.8.2" = .ok "0.9.1"
    ∧ ("1.8.2".data = "2.0.1".data ∨ "1.8.2".data = "2.0.0".data ∨
       "1.8.2".data = "1.10.2".data ∨ "1.8.2".data = "1.10.1".data ∨
       "1.8.2".data = "1.10.0".data ∨ "1.8.2".data = "1.8.2".data) :=
  claim_c7_amended "1.8.2".data "0.9.1".data (by decide)

/-! ### Error-path lemmas -/

theorem except_map_error {α β : Type} {x : Except VerError α} {f : α → β} {e : VerError} :
    x.map f = .error e ↔ x = .error e := by
  cases x <;> simp [Except.map]

theorem determineTACore_no_invalid (t m : List Char) :
    determineTACore t ≠ .error (.invalidVersion m) := by
  intro h
  rcases hx : extractRun t with _ | run
  · rw [show determineTACore t = .error (.parseError "no version match".data) from by
      simp only [determineTACore, hx]] at h
    simp at h
  · rcases hlk : lookupExc taExc run with _ | v
    · rcases hp : parseVer3 run with _ | ⟨maj, mi, fx⟩
      · rw [show determineTACore t =
            .error (.parseError "not a three-component version".data) from by
          simp only [determineTACore, hx, hlk, hp]] at h
        simp at h
      · rw [show determineTACore t = .ok (renderVer (if maj = 1 then 0 else maj) mi fx) from by
          simp only [determineTACore, hx, hlk, hp]] at h
        simp at h
    · rw [show determineTACore t = .ok v from by
        simp only [determineTACore, hx, hlk]] at h
      simp at h

theorem findLatestCore_some {s run : List Char} (h : extractRun s = some run) :
    findLatestCore s =
      (determineTVCore (stripDot run)).bind fun tv =>
      (determineTTCore (stripDot run)).bind fun tt =>
      (determineTACore (stripDot run)).bind fun ta =>
      .ok [("torch".data, stripDot run), ("torchvision".data, tv),
           ("torchtext".data, tt), ("torchaudio".data, ta)] := by
  simp only [findLatestCore, h]

theorem findLatestCore_invalid {s msg : List Char}
    (h : findLatestCore s = .error (.invalidVersion msg)) :
    ∃ run, extractRun s = some run ∧
      (determineTVCore (stripDot run) = .error (.invalidVersion msg) ∨
       determineTTCore (stripDot run) = .error (.invalidVersion msg)) := by
  rcases hx : extractRun s with _ | run
  · rw [show findLatestCore s = .error (.parseError "no version match".data) from by
        simp only [findLatestCore, hx]] at h
    simp at h
  · rw [findLatestCore_some hx] at h
    refine ⟨run, rfl, ?_⟩
    rcases htv : determineTVCore (stripDot run) with e | tv
    · rw [htv] at h
      simp [Except.bind] at h
      exact Or.inl (by rw [h])
    · rw [htv] at h
      simp only [Except.bind] at h
      rcases htt : determineTTCore (stripDot run) with e | tt
      · rw [htt] at h
        simp [Except.bind] at h
        exact Or.inr (by rw [h])
      · rw [htt] at h
        simp only [Except.bind] at h
        rcases hta : determineTACore (stripDot run) with e | ta
        · rw [hta] at h
          simp [Except.bind] at h
          exact absurd (h ▸ hta) (determineTACore_no_invalid _ _)
        · rw [hta] at h
          simp [Except.bind] at h

/-! ### Claims about error handling -/

/-- C6: on a three-component version whose major is neither 1 nor 2 and
which is in no exception table, the torchtext and torchvision rules fail
with the invalid-version error, whose message carries the offending
version string. -/
theorem claim_c6 (s : String) (run : List Char) (maj mi fx : Nat)
    (hrun : extractRun s.data = some run)
    (htt : lookupExc ttExc run = none) (htv : lookupExc tvExc run = none)
    (hp : parseVer3 run = some (maj, mi, fx)) (h1 : maj ≠ 1) (h2 : maj ≠ 2) :
    _determine_torchtext s = .error (.invalidVersion ("Invalid torch version: ".data ++ s.data))
    ∧ _determine_torchvision s =
        .error (.invalidVersion ("Invalid torch version: ".data ++ s.data))
    ∧ ∃ pre, "Invalid torch version: ".data ++ s.data = pre ++ s.data := by
  refine ⟨?_, ?_, ⟨"Invalid torch version: ".data, rfl⟩⟩
  · show (determineTTCore s.data).map String.mk = _
    have hcore : determineTTCore s.data =
        .error (.invalidVersion ("Invalid torch version: ".data ++ s.data)) := by
      simp only [determineTTCore, hrun, htt, hp, if_neg h1, if_neg h2]
    rw [hcore]
    rfl
  · show (determineTVCore s.data).map String.mk = _
    have hcore : determineTVCore s.data =
        .error (.invalidVersion ("Invalid torch version: ".data ++ s.data)) := by
      simp only [determineTVCore, hrun, htv, hp, if_neg h1, if_neg h2]
    rw [hcore]
    rfl

theorem claim_c6_witness :
    _determine_torchtext "3.0.0" =
      .error (.invalidVersion ("Invalid torch version: ".data ++ "3.0.0".data))
    ∧ _determine_torchvision "3.0.0" =
        .error (.invalidVersion ("Invalid torch version: ".data ++ "3.0.0".data))
    ∧ ∃ pre, "Invalid torch version: ".data ++ "3.0.0".data = pre ++ "3.0.0".data :=
  claim_c6 "3.0.0" "3.0.0".data 3 0 0 rfl rfl rfl rfl (by decide) (by decide)

theorem tv_key_parses {r v : List Char} (h : lookupExc tvExc r = some v) :
    parseVer3 r ≠ none := by
  have hm := lookupExc_mem tvExc r v h
  simp only [tvExc, List.mem_cons, List.not_mem_nil, or_false, Prod.mk.injEq] at hm
  rcases hm with ⟨h1, _⟩ | ⟨h1, _⟩ | ⟨h1, _⟩ | ⟨h1, _⟩ | ⟨h1, _⟩ | ⟨h1, _⟩ <;> subst h1 <;>
    decide

/-- C8: the resolver fails with a parse error both when the input has no
numeric-dot run at all and when the leading run, after one trailing dot is
stripped, does not split into exactly three integer components. -/
theorem claim_c8 (s t : String) (run : List Char)
    (h1 : extractRun s.data = none)
    (h2 : extractRun t.data = some run)
    (h3 : parseVer3 (stripDot run) = none) :
    (∃ m, find_latest s = .error (.parseError m)) ∧
    (∃ m, find_latest t = .error (.parseError m)) := by
  constructor
  · refine ⟨"no version match".data, ?_⟩
    show (findLatestCore s.data).map _ = _
    have hc : findLatestCore s.data = .error (.parseError "no version match".data) := by
      simp only [findLatestCore, h1]
    rw [hc]
    rfl
  · have hrun := extractRun_spec t.data run h2
    have hdd : ∀ c ∈ stripDot run, isDotDigit c = true := fun c hc =>
      hrun.2 c (stripDot_sub run c hc)
    have htv : ∃ m, determineTVCore (stripDot run) = .error (.parseError m) := by
      by_cases hsd : stripDot run = []
      · rw [hsd]
        exact ⟨"no version match".data, rfl⟩
      · have hex := extractRun_self _ hsd hdd
        rcases hlk : lookupExc tvExc (stripDot run) with _ | v
        · refine ⟨"not a three-component version".data, ?_⟩
          simp only [determineTVCore, hex, hlk, h3]
        · exact absurd h3 (tv_key_parses hlk)
    rcases htv with ⟨m, hm⟩
    refine ⟨m, ?_⟩
    show (findLatestCore t.data).map _ = _
    have hc : findLatestCore t.data = .error (.parseError m) := by
      rw [findLatestCore_some h2, hm]
      rfl
    rw [hc]
    rfl

theorem claim_c8_witness :
    (∃ m, find_latest "abc" = .error (.parseError m)) ∧
    (∃ m, find_latest "1.9" = .error (.parseError m)) :=
  claim_c8 "abc" "1.9" "1.9".data rfl rfl rfl

/-- C10: the torchaudio rule is total on canonical three-component versions;
for any major other than 1 it returns the version unchanged, it never raises
the invalid-version error, and any invalid-version error of the resolver
comes from the torchvision or torchtext rule. -/
theorem claim_c10 (maj mi fx a b c : Nat) (s : String) (msg : List Char)
    (hmaj : maj ≠ 1) :
    _determine_torchaudio (renderVerS maj mi fx) = .ok (renderVerS maj mi fx)
    ∧ (∃ out, _determine_torchaudio (renderVerS a b c) = .ok out)
    ∧ _determine_torchaudio s ≠ .error (.invalidVersion msg)
    ∧ (find_latest s = .error (.invalidVersion msg) →
        ∃ v : String, _determine_torchvision v = .error (.invalidVersion msg) ∨
          _determine_torchtext v = .error (.invalidVersion msg)) := by
  have hk182 : parseVer3 "1.8.2".data = some (1, 8, 2) := rfl
  refine ⟨?_, ?_, ?_, ?_⟩
  · have hne182 : renderVer maj mi fx ≠ "1.8.2".data :=
      ne_key_of_parse (parseVer3_renderVer maj mi fx) hk182
        (by intro h; simp only [Prod.mk.injEq] at h; exact hmaj h.1)
    show (determineTACore (renderVer maj mi fx)).map String.mk = _
    rw [determineTACore_render maj mi fx (lookup_ta_none hne182), if_neg hmaj]
    rfl
  · by_cases h182 : renderVer a b c = "1.8.2".data
    · refine ⟨"0.9.1", ?_⟩
      show (determineTACore (renderVer a b c)).map String.mk = _
      rw [h182]
      rfl
    · refine ⟨renderVerS (if a = 1 then 0 else a) b c, ?_⟩
      show (determineTACore (renderVer a b c)).map String.mk = _
      rw [determineTACore_render a b c (lookup_ta_none h182)]
      rfl
  · intro hc
    exact determineTACore_no_invalid s.data msg (except_map_error.mp hc)
  · intro hfl
    have hcore : findLatestCore s.data = .error (.invalidVersion msg) :=
      except_map_error.mp hfl
    rcases findLatestCore_invalid hcore with ⟨run, _, hcase⟩
    refine ⟨String.mk (stripDot run), ?_⟩
    rcases hcase with hc | hc
    · refine Or.inl ?_
      show (determineTVCore (stripDot run)).map String.mk = _
      rw [hc]
      rfl
    · refine Or.inr ?_
      show (determineTTCore (stripDot run)).map String.mk = _
      rw [hc]
      rfl

theorem claim_c10_witness :
    _determine_torchaudio (renderVerS 3 0 0) = .ok (renderVerS 3 0 0)
    ∧ (∃ out, _determine_torchaudio (renderVerS 1 9 0) = .ok out)
    ∧ _determine_torchaudio "3.0.0" ≠ .error (.invalidVersion "x".data)
    ∧ (find_latest "3.0.0" = .error (.invalidVersion "x".data) →
        ∃ v : String, _determine_torchvision v = .error (.invalidVersion "x".data) ∨
          _determine_torchtext v = .error (.invalidVersion "x".data)) :=
  claim_c10 3 0 0 1 9 0 "3.0.0" "x".data (by decide)

/-! ### The manifest rewriter -/

/-- The `(?![-_\w])` negative lookahead, applied to the rest of the line. -/
def lookaheadOK : List Char → Bool
  | [] => true
  | c :: _ => ! lookChar c

/-- Word-boundary test before position `i` (the substituted names start
with a word character, so `\b` holds exactly when position `i` is the start
of the line or the previous character is not a word character). -/
def prevOK (s : List Char) (i : Nat) : Bool :=
  match i with
  | 0 => true
  | j + 1 =>
    match s[j]? with
    | some c => ! isWordChar c
    | none => false

/-- `validOccB lib s i`: the pattern `\b{lib}(?![-_\w])` matches `s` at
position `i`. -/
def validOccB (lib s : List Char) (i : Nat) : Bool :=
  lib.isPrefixOf (s.drop i) && prevOK s i && lookaheadOK (s.drop (i + lib.length))

def firstValidAux (lib s : List Char) : Nat → Nat → Option Nat
  | _, 0 => none
  | i, fuel + 1 => if validOccB lib s i then some i else firstValidAux lib s (i + 1) fuel

/-- Position of the leftmost match of `\b{lib}(?![-_\w])` in `s`. -/
def firstValid (lib s : List Char) : Option Nat := firstValidAux lib s 0 (s.length + 1)

/-- `re.sub(rf"\b{lib}(?![-_\w]).*", repl, req)` on one requirement line:
replace from the leftmost match of the whole-token pattern through the end
of the line (`.*` is greedy, and a requirement line holds no newline). -/
def reSub (lib repl s : List Char) : List Char :=
  match firstValid lib s with
  | none => s
  | some i => s.take i ++ repl

/-- `f"{lib}=={version}" if version else ""`. -/
def replFor (lib v : List Char) : List Char :=
  if v = [] then [] else lib ++ '=' :: '=' :: v

/-- The inner `for lib, version in options.items()` loop of `adjust`:
apply each companion's substitution in the map's insertion order. -/
def subsAll (opts : List (List Char × List Char)) (req : List Char) : List Char :=
  opts.foldl (fun r p => reSub p.1 (replFor p.1 p.2) r) req

/-- `req.split("#", maxsplit=1)`: the part before the first `#`, plus the
part after it when a `#` occurs. -/
def splitHash : List Char → List Char × Option (List Char)
  | [] => ([], none)
  | c :: rest =>
    if c = '#' then ([], some rest)
    else
      let p := splitHash rest
      (c :: p.1, p.2)

/-- One iteration of the `for req in requires` loop of `adjust`: strip the
line, split off the inline comment, rewrite the requirement part, and glue
the re-spaced comment back on. -/
def processLine (opts : List (List Char × List Char)) (line : List Char) : List Char :=
  match (splitHash (pyStrip line)).2 with
  | none =>
    if pyStrip (splitHash (pyStrip line)).1 = [] then []
    else subsAll opts (pyStrip (splitHash (pyStrip line)).1)
  | some tail =>
    if pyStrip (splitHash (pyStrip line)).1 = [] then pyStrip (' ' :: ' ' :: '#' :: tail)
    else subsAll opts (pyStrip (splitHash (pyStrip line)).1) ++
      pyRStrip (' ' :: ' ' :: '#' :: tail)

/-- The alignment map as character lists. -/
def optsL (opts : List (String × String)) : List (List Char × List Char) :=
  opts.map fun p => (p.1.data, p.2.data)

/-- `adjust(requires, pytorch_version)` with an explicit version argument
(the `torch.__version__` default is host-environment interaction and stays
outside this model). -/
def adjust (requires : List String) (pytorch_version : String) :
    Except VerError (List String) :=
  (find_latest pytorch_version).map fun options =>
    requires.map fun r => String.mk (processLine (optsL options) r.data)

-- Sanity check: the doctest of `adjust`.
theorem doctest_adjust :
    adjust ["torch>=1.9.0", "torchvision>=0.10.0", "torchtext>=0.10.0",
            "torchaudio>=0.9.0"] "2.1.0" =
      .ok ["torch==2.1.0", "torchvision==0.16.0", "torchtext==0.16.0",
           "torchaudio==2.1.0"] := by
  rfl

-- Sanity check: comment preservation and non-matching lines, as in the
-- spec's rewriting example for primary version 1.10.0.
theorem example_rewrite_1_10_0 :
    adjust ["torchvision >=0.13.0, <0.16.0  # sample # comment",
            "gym[classic_control] >=0.17.0, <0.27.0"] "1.10.0" =
      .ok ["torchvision==0.11.1  # sample # comment",
           "gym[classic_control] >=0.17.0, <0.27.0"] := by
  rfl

/-! ### Leftmost-match lemmas for the substitution -/

theorem validOccB_gt_len {lib s : List Char} {i : Nat} (h : s.length < i) :
    validOccB lib s i = false := by
  unfold validOccB
  match i, h with
  | j + 1, h =>
    have hj : s[j]? = none := List.getElem?_eq_none (by omega)
    simp [prevOK, hj]

theorem firstValidAux_some (lib s : List Char) :
    ∀ (fuel i k : Nat), firstValidAux lib s i fuel = some k →
      validOccB lib s k = true ∧ i ≤ k ∧ ∀ j, i ≤ j → j < k → validOccB lib s j = false
  | 0, i, k => by simp [firstValidAux]
  | fuel + 1, i, k => by
    intro h
    simp only [firstValidAux] at h
    by_cases hv : validOccB lib s i = true
    · rw [if_pos hv] at h
      injection h with h
      subst h
      exact ⟨hv, Nat.le_refl i, fun j h1 h2 => absurd h1 (Nat.not_le_of_lt h2)⟩
    · rw [if_neg hv] at h
      obtain ⟨ha, hb, hc⟩ := firstValidAux_some lib s fuel (i + 1) k h
      refine ⟨ha, Nat.le_of_succ_le hb, fun j h1 h2 => ?_⟩
      rcases Nat.eq_or_lt_of_le h1 with rfl | hlt
      · simpa using hv
      · exact hc j (Nat.succ_le_of_lt hlt) h2

theorem firstValidAux_none (lib s : List Char) :
    ∀ (fuel i : Nat), firstValidAux lib s i fuel = none →
      ∀ j, i ≤ j → j < i + fuel → validOccB lib s j = false
  | 0, i => by
    intro _ j h1 h2
    omega
  | fuel + 1, i => by
    intro h j h1 h2
    simp only [firstValidAux] at h
    by_cases hv : validOccB lib s i = true
    · rw [if_pos hv] at h
      cases h
    · rw [if_neg hv] at h
      rcases Nat.eq_or_lt_of_le h1 with rfl | hlt
      · simpa using hv
      · exact firstValidAux_none lib s fuel (i + 1) h j (Nat.succ_le_of_lt hlt) (by omega)

theorem firstValidAux_of_valid (lib s : List Char) :
    ∀ (fuel i k : Nat), i ≤ k → k < i + fuel → validOccB lib s k = true →
      (∀ j, i ≤ j → j < k → validOccB lib s j = false) →
      firstValidAux lib s i fuel = some k
  | 0, i, k => by
    intro h1 h2 _ _
    omega
  | fuel + 1, i, k => by
    intro h1 h2 h3 h4
    simp only [firstValidAux]
    rcases Nat.eq_or_lt_of_le h1 with rfl | hlt
    · rw [if_pos h3]
    · rw [if_neg (by simp [h4 i (Nat.le_refl i) hlt])]
      exact firstValidAux_of_valid lib s fuel (i + 1) k (Nat.succ_le_of_lt hlt) (by omega) h3
        (fun j hj1 hj2 => h4 j (Nat.le_of_succ_le hj1) hj2)

theorem firstValid_some {lib s : List Char} {k : Nat} (h : firstValid lib s = some k) :
    validOccB lib s k = true ∧ ∀ j, j < k → validOccB lib s j = false := by
  obtain ⟨ha, _, hc⟩ := firstValidAux_some lib s (s.length + 1) 0 k h
  exact ⟨ha, fun j h2 => hc j (Nat.zero_le j) h2⟩

theorem firstValid_none {lib s : List Char} (h : firstValid lib s = none) :
    ∀ j, validOccB lib s j = false := by
  intro j
  by_cases hj : j ≤ s.length
  · exact firstValidAux_none lib s (s.length + 1) 0 h j (Nat.zero_le j) (by omega)
  · exact validOccB_gt_len (by omega)

theorem firstValid_of_valid {lib s : List Char} {k : Nat} (hk : validOccB lib s k = true)
    (hmin : ∀ j, j < k → validOccB lib s j = false) : firstValid lib s = some k := by
  have hkle : k ≤ s.length := by
    by_contra hgt
    rw [validOccB_gt_len (by omega)] at hk
    cases hk
  exact firstValidAux_of_valid lib s (s.length + 1) 0 k (Nat.zero_le k) (by omega) hk
    (fun j _ hj => hmin j hj)

/-! ### Claims about whole-token matching and line preservation -/

/-- C3: a companion-name occurrence followed by an identifier character,
hyphen or underscore never triggers a substitution — a substitution needs a
position where the whole-token pattern `\b{lib}(?![-_\w])` matches — and a
requirement whose package name strictly extends a companion name, such as
`torchxyz`, is never rewritten by the shorter name's rule. -/
theorem claim_c3 (lib : String) (repl s u : List Char)
    (hlib : lib ∈ ["torch", "torchvision", "torchtext", "torchaudio"])
    (hnl : '\n' ∉ s)
    (h : ∀ i, i < s.length + 1 → validOccB lib.data s i = false) :
    reSub lib.data repl s = s
    ∧ (reSub lib.data repl u ≠ u → ∃ i, validOccB lib.data u i = true)
    ∧ adjust ["torchxyz>=1.0"] "2.1.0" = .ok ["torchxyz>=1.0"] := by
  refine ⟨?_, ?_, rfl⟩
  · have hnone : firstValid lib.data s = none := by
      rcases hf : firstValid lib.data s with _ | k
      · rfl
      · obtain ⟨hk, _⟩ := firstValid_some hf
        have hlt : k < s.length + 1 := by
          by_contra hgt
          rw [validOccB_gt_len (by omega)] at hk
          cases hk
        rw [h k hlt] at hk
        cases hk
    unfold reSub
    rw [hnone]
  · intro hne
    rcases hf : firstValid lib.data u with _ | k
    · exact absurd (by unfold reSub; rw [hf]) hne
    · exact ⟨k, (firstValid_some hf).1⟩

theorem claim_c3_witness :
    reSub "torch".data "torch==2.1.0".data "torchxyz>=1.0".data = "torchxyz>=1.0".data
    ∧ (reSub "torch".data "torch==2.1.0".data "torch-cpu>=1".data ≠ "torch-cpu>=1".data →
        ∃ i, validOccB "torch".data "torch-cpu>=1".data i = true)
    ∧ adjust ["torchxyz>=1.0"] "2.1.0" = .ok ["torchxyz>=1.0"] :=
  claim_c3 "torch" "torch==2.1.0".data "torchxyz>=1.0".data "torch-cpu>=1".data
    (by decide) (by decide) (by decide)

/-- C4: for every accepted primary version, `adjust` maps the line list
pointwise — the output has exactly as many lines as the input and the i-th
output line is computed from the i-th input line alone. -/
theorem claim_c4 (lines : List String) (v : String) (opts : List (String × String))
    (i : Nat) (h : find_latest v = .ok opts) :
    adjust lines v = .ok (lines.map fun l => String.mk (processLine (optsL opts) l.data))
    ∧ (lines.map fun l => String.mk (processLine (optsL opts) l.data)).length = lines.length
    ∧ (lines.map fun l => String.mk (processLine (optsL opts) l.data))[i]? =
        Option.map (fun l => String.mk (processLine (optsL opts) l.data)) lines[i]? := by
  refine ⟨?_, List.length_map _ _, List.getElem?_map _ _ _⟩
  show (find_latest v).map _ = _
  rw [h]
  rfl

theorem claim_c4_witness :
    adjust ["torch>=1.9.0", "# hello"] "2.1.0" =
      .ok (["torch>=1.9.0", "# hello"].map fun l =>
        String.mk (processLine (optsL [("torch", "2.1.0"), ("torchvision", "0.16.0"),
          ("torchtext", "0.16.0"), ("torchaudio", "2.1.0")]) l.data))
    ∧ (["torch>=1.9.0", "# hello"].map fun l =>
        String.mk (processLine (optsL [("torch", "2.1.0"), ("torchvision", "0.16.0"),
          ("torchtext", "0.16.0"), ("torchaudio", "2.1.0")]) l.data)).length =
        (["torch>=1.9.0", "# hello"] : List String).length
    ∧ (["torch>=1.9.0", "# hello"].map fun l =>
        String.mk (processLine (optsL [("torch", "2.1.0"), ("torchvision", "0.16.0"),
          ("torchtext", "0.16.0"), ("torchaudio", "2.1.0")]) l.data))[1]? =
        Option.map (fun l => String.mk (processLine (optsL [("torch", "2.1.0"),
          ("torchvision", "0.16.0"), ("torchtext", "0.16.0"),
          ("torchaudio", "2.1.0")]) l.data)) (["torch>=1.9.0", "# hello"] : List String)[1]? :=
  claim_c4 ["torch>=1.9.0", "# hello"] "2.1.0"
    [("torch", "2.1.0"), ("torchvision", "0.16.0"), ("torchtext", "0.16.0"),
     ("torchaudio", "2.1.0")] 1 rfl

/-- C9 counterexample: on the requirement `"torchvision x torch"` with
primary version 2.1.0, the torch rule substitutes first and the torchvision
rule then rewrites the already-substituted result, so two substitutions are
applied to one line — refuting "at most one substitution per line, first
match wins". -/
theorem claim_c9_cex :
    reSub "torch".data "torch==2.1.0".data "torchvision x torch".data =
      "torchvision x torch==2.1.0".data
    ∧ reSub "torchvision".data "torchvision==0.16.0".data
        "torchvision x torch==2.1.0".data = "torchvision==0.16.0".data
    ∧ "torchvision x torch==2.1.0".data ≠ "torchvision x torch".data
    ∧ "torchvision==0.16.0".data ≠ "torchvision x torch==2.1.0".data
    ∧ adjust ["torchvision x torch"] "2.1.0" = .ok ["torchvision==0.16.0"] := by
  exact ⟨rfl, rfl, by decide, by decide, rfl⟩

/-- C9 as amended: each companion's rule performs at most one replacement
per line — from the leftmost whole-token match through the end of the line —
and the rules run sequentially in the map's insertion order (torch,
torchvision, torchtext, torchaudio), so a later companion's rule may rewrite
the result of an earlier substitution, as on `"torchvision x torch"`. -/
theorem claim_c9_amended (lib repl s : List Char)
    (opts : List (List Char × List Char)) (req : List Char) :
    (reSub lib repl s = s ∨ ∃ i, i ≤ s.length ∧ reSub lib repl s = s.take i ++ repl)
    ∧ subsAll opts req = opts.foldl (fun r p => reSub p.1 (replFor p.1 p.2) r) req
    ∧ reSub "torchvision".data (replFor "torchvision".data "0.16.0".data)
        (reSub "torch".data (replFor "torch".data "2.1.0".data)
          "torchvision x torch".data) = "torchvision==0.16.0".data := by
  refine ⟨?_, rfl, rfl⟩
  rcases hf : firstValid lib s with _ | k
  · exact Or.inl (by unfold reSub; rw [hf])
  · refine Or.inr ⟨k, ?_, by unfold reSub; rw [hf]⟩
    obtain ⟨hk, _⟩ := firstValid_some hf
    by_contra hgt
    rw [validOccB_gt_len (by omega)] at hk
    cases hk

/-! ### Character-class and prefix helpers for the idempotence proof -/

theorem isSpace_cases {c : Char} (h : isSpace c = true) :
    c = ' ' ∨ c = '\t' ∨ c = '\n' ∨ c = '\x0b' ∨ c = '\x0c' ∨ c = '\r' ∨ c = '\x1c' ∨
    c = '\x1d' ∨ c = '\x1e' ∨ c = '\x1f' ∨ c = '\x85' ∨ c = '\xa0' := by
  simpa [isSpace, Bool.or_eq_true, decide_eq_true_eq, or_assoc] using h

theorem not_isSpace_of_isWordChar {c : Char} (h : isWordChar c = true) :
    isSpace c = false := by
  by_contra hs
  have hs' : isSpace c = true := by simpa using hs
  rcases isSpace_cases hs' with rfl | rfl | rfl | rfl | rfl | rfl | rfl | rfl | rfl | rfl |
    rfl | rfl <;> exact absurd h (by decide)

theorem not_isSpace_of_isDotDigit {c : Char} (h : isDotDigit c = true) :
    isSpace c = false := by
  by_contra hs
  have hs' : isSpace c = true := by simpa using hs
  rcases isSpace_cases hs' with rfl | rfl | rfl | rfl | rfl | rfl | rfl | rfl | rfl | rfl |
    rfl | rfl <;> exact absurd h (by decide)

theorem not_hash_of_isWordChar {c : Char} (h : isWordChar c = true) : c ≠ '#' := by
  intro e
  subst e
  exact absurd h (by decide)

theorem not_hash_of_isDotDigit {c : Char} (h : isDotDigit c = true) : c ≠ '#' := by
  intro e
  subst e
  exact absurd h (by decide)

theorem isPrefixOf_ex : ∀ (l s : List Char), l.isPrefixOf s = true ↔ ∃ t, s = l ++ t
  | [], s => by simp
  | a :: l, [] => by simp
  | a :: l, b :: s => by
    rw [List.isPrefixOf_cons₂]
    constructor
    · intro h
      rw [Bool.and_eq_true] at h
      obtain ⟨t, rfl⟩ := (isPrefixOf_ex l s).mp h.2
      have hab : a = b := by simpa using h.1
      subst hab
      exact ⟨t, rfl⟩
    · rintro ⟨t, ht⟩
      injection ht with h1 h2
      subst h1
      rw [Bool.and_eq_true]
      exact ⟨by simp, (isPrefixOf_ex l s).mpr ⟨t, h2⟩⟩

theorem isPrefixOf_append_left : ∀ (L Z Y : List Char),
    L.length ≤ Z.length → L.isPrefixOf (Z ++ Y) = L.isPrefixOf Z
  | [], Z, Y, _ => by simp
  | a :: L, [], Y, h => by simp at h
  | a :: L, b :: Z, Y, h => by
    simp only [List.cons_append, List.isPrefixOf_cons₂]
    rw [isPrefixOf_append_left L Z Y (Nat.le_of_succ_le_succ (by simpa using h))]

theorem drop_append_le {X Z : List Char} {p : Nat} (h : p ≤ X.length) :
    (X ++ Z).drop p = X.drop p ++ Z := by
  rw [List.drop_append_eq_append_drop, Nat.sub_eq_zero_of_le h, List.drop_zero]

theorem drop_append_plus (X Z : List Char) (m : Nat) :
    (X ++ Z).drop (X.length + m) = Z.drop m := by
  rw [List.drop_append_eq_append_drop, List.drop_eq_nil_of_le (by omega),
      Nat.add_sub_cancel_left, List.nil_append]

theorem lookaheadOK_cons_word {c : Char} {t : List Char} (h : isWordChar c = true) :
    lookaheadOK (c :: t) = false := by
  simp [lookaheadOK, lookChar, h]

theorem validOccB_iff {lib s : List Char} {i : Nat} :
    validOccB lib s i = true ↔
      lib.isPrefixOf (s.drop i) = true ∧ prevOK s i = true ∧
      lookaheadOK (s.drop (i + lib.length)) = true := by
  unfold validOccB
  rw [Bool.and_eq_true, Bool.and_eq_true, and_assoc]

theorem validOcc_append_left {L X : List Char} (Y : List Char) {p : Nat}
    (h : p + L.length < X.length) :
    validOccB L (X ++ Y) p = validOccB L X p := by
  have hp : p ≤ X.length := by omega
  have hd1 : (X ++ Y).drop p = X.drop p ++ Y := drop_append_le hp
  have hd2 : (X ++ Y).drop (p + L.length) = X.drop (p + L.length) ++ Y :=
    drop_append_le (by omega)
  unfold validOccB
  rw [hd1, hd2]
  have c1 : L.isPrefixOf (X.drop p ++ Y) = L.isPrefixOf (X.drop p) :=
    isPrefixOf_append_left L (X.drop p) Y (by rw [List.length_drop]; omega)
  have c2 : prevOK (X ++ Y) p = prevOK X p := by
    match p, h with
    | 0, _ => rfl
    | j + 1, h =>
      simp only [prevOK]
      rw [List.getElem?_append_left (show j < X.length by omega)]
  have c3 : lookaheadOK (X.drop (p + L.length) ++ Y) =
      lookaheadOK (X.drop (p + L.length)) := by
    rcases hne : X.drop (p + L.length) with _ | ⟨c, t⟩
    · rw [List.drop_eq_nil_iff] at hne
      omega
    · rfl
  rw [c1, c2, c3]

/-- Occurrence analysis for substituted strings: in `X ++ K ++ "==" ++ v`
(the shape `reSub` produces), a whole-token match of a companion name `L`
either lies strictly inside `X` (with its lookahead character still in `X`),
or sits exactly at the seam with `L = K`.  The hypotheses say that names are
non-empty words starting with a non-version character, that `v` is made of
dots and digits, and that `K` is not a proper suffix of `L`. -/
theorem validOcc_repl {L K v X : List Char} {p : Nat}
    (hLw : ∀ c ∈ L, isWordChar c = true) (hLne : L ≠ [])
    (hLd : ∀ c, L.head? = some c → isDotDigit c = false)
    (hKw : ∀ c ∈ K, isWordChar c = true) (hKne : K ≠ [])
    (hv : ∀ c ∈ v, isDotDigit c = true)
    (hns : ∀ A, A ≠ [] → A ++ K ≠ L)
    (h : validOccB L (X ++ (K ++ '=' :: '=' :: v)) p = true) :
    (p + L.length < X.length ∧ validOccB L X p = true) ∨ (p = X.length ∧ L = K) := by
  obtain ⟨hpre, hprev, hlook⟩ := validOccB_iff.mp h
  obtain ⟨w, hw⟩ := (isPrefixOf_ex L _).mp hpre
  rcases Nat.lt_trichotomy p X.length with hpX | hpX | hpX
  · rcases Nat.lt_trichotomy (p + L.length) X.length with h1 | h1 | h1
    · exact Or.inl ⟨h1, by
        rw [← validOcc_append_left (K ++ '=' :: '=' :: v) h1]; exact h⟩
    · exfalso
      have hdx : (X ++ (K ++ '=' :: '=' :: v)).drop (p + L.length) =
          K ++ '=' :: '=' :: v := by
        rw [h1]
        exact List.drop_left X _
      rw [hdx] at hlook
      match K, hKne with
      | k0 :: K', _ =>
        have hk0 : isWordChar k0 = true := hKw k0 (List.mem_cons_self _ _)
        rw [List.cons_append, lookaheadOK_cons_word hk0] at hlook
        cases hlook
    · exfalso
      have hdT : (X ++ (K ++ '=' :: '=' :: v)).drop p =
          X.drop p ++ (K ++ '=' :: '=' :: v) := drop_append_le (Nat.le_of_lt hpX)
      rw [hdT] at hw
      have hsplitL : L.take (X.length - p) ++ L.drop (X.length - p) = L :=
        List.take_append_drop _ _
      have hw2 : X.drop p ++ (K ++ '=' :: '=' :: v) =
          L.take (X.length - p) ++ (L.drop (X.length - p) ++ w) := by
        conv_lhs => rw [hw]
        conv_lhs => rw [← hsplitL]
        rw [List.append_assoc]
      have hlen1 : (X.drop p).length = (L.take (X.length - p)).length := by
        rw [List.length_drop, List.length_take]
        omega
      obtain ⟨hA, hB⟩ := List.append_inj hw2 hlen1
      have hBw : ∀ c ∈ L.drop (X.length - p), isWordChar c = true :=
        fun c hc => hLw c (List.drop_subset _ _ hc)
      rcases Nat.lt_trichotomy (L.drop (X.length - p)).length K.length with h2 | h2 | h2
      · have hpos : p + L.length = X.length + (L.drop (X.length - p)).length := by
          rw [List.length_drop]
          omega
        have hdrop : (X ++ (K ++ '=' :: '=' :: v)).drop (p + L.length) =
            K.drop (L.drop (X.length - p)).length ++ '=' :: '=' :: v := by
          rw [hpos, drop_append_plus, drop_append_le (Nat.le_of_lt h2)]
        rw [hdrop] at hlook
        rcases hKd : K.drop (L.drop (X.length - p)).length with _ | ⟨c, t⟩
        · rw [List.drop_eq_nil_iff] at hKd
          omega
        · have hc : c ∈ K := List.drop_subset _ _ (hKd ▸ List.mem_cons_self c t)
          rw [hKd, List.cons_append, lookaheadOK_cons_word (hKw c hc)] at hlook
          cases hlook
      · obtain ⟨hKB, _⟩ := List.append_inj hB h2.symm
        have hTne : L.take (X.length - p) ≠ [] := by
          intro e
          have hlen := congrArg List.length e
          rw [List.length_take] at hlen
          simp only [List.length_nil] at hlen
          rcases Nat.min_eq_zero_iff.mp hlen with h0 | h0
          · omega
          · exact hLne (List.length_eq_zero.mp h0)
        exact hns (L.take (X.length - p)) hTne (by rw [hKB]; exact hsplitL)
      · have hsplitB : (L.drop (X.length - p)).take K.length ++
            (L.drop (X.length - p)).drop K.length = L.drop (X.length - p) :=
          List.take_append_drop _ _
        have hw3 : K ++ '=' :: '=' :: v = (L.drop (X.length - p)).take K.length ++
            ((L.drop (X.length - p)).drop K.length ++ w) := by
          conv_lhs => rw [hB]
          conv_lhs => rw [← hsplitB]
          rw [List.append_assoc]
        have hlen2 : K.length = ((L.drop (X.length - p)).take K.length).length := by
          rw [List.length_take]
          omega
        obtain ⟨_, hE⟩ := List.append_inj hw3 hlen2
        rcases hBd : (L.drop (X.length - p)).drop K.length with _ | ⟨c, t⟩
        · rw [List.drop_eq_nil_iff] at hBd
          omega
        · rw [hBd, List.cons_append] at hE
          injection hE with hE1 _
          have hcB : c ∈ L.drop (X.length - p) :=
            List.drop_subset _ _ (hBd ▸ List.mem_cons_self c t)
          have hcw := hBw c hcB
          rw [← hE1] at hcw
          exact absurd hcw (by decide)
  · have hdT : (X ++ (K ++ '=' :: '=' :: v)).drop p = K ++ '=' :: '=' :: v := by
      rw [hpX]
      exact List.drop_left X _
    rw [hdT] at hw
    rcases Nat.lt_trichotomy L.length K.length with h2 | h2 | h2
    · exfalso
      have hdrop : (X ++ (K ++ '=' :: '=' :: v)).drop (p + L.length) =
          K.drop L.length ++ '=' :: '=' :: v := by
        rw [hpX, drop_append_plus, drop_append_le (Nat.le_of_lt h2)]
      rw [hdrop] at hlook
      rcases hKd : K.drop L.length with _ | ⟨c, t⟩
      · rw [List.drop_eq_nil_iff] at hKd
        omega
      · have hc : c ∈ K := List.drop_subset _ _ (hKd ▸ List.mem_cons_self c t)
        rw [hKd, List.cons_append, lookaheadOK_cons_word (hKw c hc)] at hlook
        cases hlook
    · obtain ⟨hKL, _⟩ := List.append_inj hw h2.symm
      exact Or.inr ⟨hpX, hKL.symm⟩
    · exfalso
      have hsplitL2 : L.take K.length ++ L.drop K.length = L := List.take_append_drop _ _
      have hw3 : K ++ '=' :: '=' :: v = L.take K.length ++ (L.drop K.length ++ w) := by
        conv_lhs => rw [hw]
        conv_lhs => rw [← hsplitL2]
        rw [List.append_assoc]
      have hlen2 : K.length = (L.take K.length).length := by
        rw [List.length_take]
        omega
      obtain ⟨_, hE⟩ := List.append_inj hw3 hlen2
      rcases hLdrop : L.drop K.length with _ | ⟨c, t⟩
      · rw [List.drop_eq_nil_iff] at hLdrop
        omega
      · rw [hLdrop, List.cons_append] at hE
        injection hE with hE1 _
        have hcL : c ∈ L := List.drop_subset _ _ (hLdrop ▸ List.mem_cons_self c t)
        have hcw := hLw c hcL
        rw [← hE1] at hcw
        exact absurd hcw (by decide)
  · exfalso
    have hdT : (X ++ (K ++ '=' :: '=' :: v)).drop p =
        (K ++ '=' :: '=' :: v).drop (p - X.length) := by
      generalize hd0 : p - X.length = m0
      have hpm : p = X.length + m0 := by omega
      rw [hpm, drop_append_plus]
    rw [hdT] at hw
    rcases Nat.lt_trichotomy (p - X.length) (K.length + 1) with h2 | h2 | h2
    · obtain ⟨pp, rfl⟩ : ∃ pp, p = pp + 1 := ⟨p - 1, by omega⟩
      simp only [prevOK] at hprev
      have hget : (X ++ (K ++ '=' :: '=' :: v))[pp]? = K[pp - X.length]? := by
        have hpp : pp = X.length + (pp - X.length) := by omega
        conv_lhs => rw [hpp]
        rw [List.getElem?_append_right (by omega), Nat.add_sub_cancel_left,
            List.getElem?_append_left (by omega)]
      rcases hk : K[pp - X.length]? with _ | c
      · rw [hget, hk] at hprev
        simp at hprev
      · rw [hget, hk] at hprev
        simp at hprev
        exact absurd (hKw c (List.getElem?_mem hk)) (by simp [hprev])
    · have hday : (K ++ '=' :: '=' :: v).drop (p - X.length) = '=' :: v := by
        rw [h2, drop_append_plus, List.drop_succ_cons, List.drop_zero]
      rw [hday] at hw
      match L, hLne, hw with
      | c :: L', _, hw =>
        rw [List.cons_append] at hw
        injection hw with h3 _
        have hcw := hLw c (List.mem_cons_self _ _)
        rw [← h3] at hcw
        exact absurd hcw (by decide)
    · have hday : (K ++ '=' :: '=' :: v).drop (p - X.length) =
          v.drop (p - X.length - K.length - 2) := by
        generalize hd : p - X.length - K.length - 2 = d
        have hm2 : p - X.length = K.length + (d + 1 + 1) := by omega
        rw [hm2, drop_append_plus, List.drop_succ_cons, List.drop_succ_cons]
      rw [hday] at hw
      match L, hLne, hw with
      | c :: L', _, hw =>
        have hcv : c ∈ v := by
          have hmem : c ∈ v.drop (p - X.length - K.length - 2) := by
            rw [hw, List.cons_append]
            exact List.mem_cons_self _ _
          exact List.drop_subset _ _ hmem
        have hd1 := hLd c rfl
        rw [hv c hcv] at hd1
        cases hd1

/-! ### The substitution pass maps every string to a fixed point -/

theorem firstValid_none_of {lib s : List Char} (h : ∀ j, validOccB lib s j = false) :
    firstValid lib s = none := by
  rcases hf : firstValid lib s with _ | k
  · rfl
  · have hk := (firstValid_some hf).1
    rw [h k] at hk
    cases hk

/-- Conditions on a companion package name. -/
def goodLibP (L : List Char) : Prop :=
  L ≠ [] ∧ (∀ c ∈ L, isWordChar c = true) ∧ ∀ c, L.head? = some c → isDotDigit c = false

/-- Conditions on a resolved version string. -/
def goodVer (v : List Char) : Prop := v ≠ [] ∧ ∀ c ∈ v, isDotDigit c = true

/-- `K` is not a proper suffix of `L`. -/
def noSuf (K L : List Char) : Prop := ∀ A, A ≠ [] → A ++ K ≠ L

/-- After a substitution pass, a companion either has no whole-token
occurrence left, or its leftmost occurrence carries the substituted tail. -/
def INV (L v t : List Char) : Prop :=
  firstValid L t = none ∨
  ∃ i, firstValid L t = some i ∧ t.drop i = L ++ '=' :: '=' :: v

theorem reSub_fix {L v t : List Char} (hv : v ≠ []) (hinv : INV L v t) :
    reSub L (replFor L v) t = t := by
  rcases hinv with hn | ⟨i, hi, htail⟩
  · unfold reSub
    rw [hn]
  · have hres : reSub L (replFor L v) t = t.take i ++ (L ++ '=' :: '=' :: v) := by
      unfold reSub replFor
      rw [hi, if_neg hv]
    rw [hres, ← htail, List.take_append_drop]

theorem reSub_establish {L v s : List Char}
    (hL : goodLibP L) (hv : goodVer v) (hns : noSuf L L) :
    INV L v (reSub L (replFor L v) s) := by
  obtain ⟨hLne, hLw, hLd⟩ := hL
  obtain ⟨hvne, hvd⟩ := hv
  rcases hf : firstValid L s with _ | i
  · have : reSub L (replFor L v) s = s := by unfold reSub; rw [hf]
    rw [this]
    exact Or.inl hf
  · obtain ⟨hvalid, hmin⟩ := firstValid_some hf
    have hile : i ≤ s.length := by
      by_contra hgt
      rw [validOccB_gt_len (by omega)] at hvalid
      cases hvalid
    have hres : reSub L (replFor L v) s = s.take i ++ (L ++ '=' :: '=' :: v) := by
      unfold reSub replFor
      rw [hf, if_neg hvne]
    have hlen_take : (s.take i).length = i := by
      rw [List.length_take]
      omega
    have hdrop : (s.take i ++ (L ++ '=' :: '=' :: v)).drop i = L ++ '=' :: '=' :: v :=
      List.drop_left' hlen_take
    have hprev_t : prevOK (s.take i ++ (L ++ '=' :: '=' :: v)) i = true := by
      obtain ⟨_, hprev_s, _⟩ := validOccB_iff.mp hvalid
      match i, hprev_s, hile, hlen_take with
      | 0, _, _, _ => rfl
      | j + 1, hprev_s, hile, hlen_take =>
        simp only [prevOK] at hprev_s ⊢
        have hj : (s.take (j + 1) ++ (L ++ '=' :: '=' :: v))[j]? = s[j]? := by
          rw [List.getElem?_append_left (by rw [hlen_take]; omega), List.getElem?_take,
              if_pos (by omega)]
        rw [hj]
        exact hprev_s
    have hlook_t :
        lookaheadOK ((s.take i ++ (L ++ '=' :: '=' :: v)).drop (i + L.length)) = true := by
      have hstep : (s.take i ++ (L ++ '=' :: '=' :: v)).drop (i + L.length) =
          '=' :: '=' :: v := by
        have h1 : i + L.length = (s.take i).length + L.length := by rw [hlen_take]
        rw [h1, drop_append_plus, List.drop_left]
      rw [hstep]
      rfl
    have hpre_t : L.isPrefixOf ((s.take i ++ (L ++ '=' :: '=' :: v)).drop i) = true := by
      rw [hdrop]
      exact (isPrefixOf_ex L _).mpr ⟨'=' :: '=' :: v, rfl⟩
    have hvalid_t : validOccB L (s.take i ++ (L ++ '=' :: '=' :: v)) i = true :=
      validOccB_iff.mpr ⟨hpre_t, hprev_t, hlook_t⟩
    have hmin_t : ∀ j, j < i →
        validOccB L (s.take i ++ (L ++ '=' :: '=' :: v)) j = false := by
      intro j hj
      by_contra hcon
      have hcon' : validOccB L (s.take i ++ (L ++ '=' :: '=' :: v)) j = true := by
        simpa using hcon
      rcases validOcc_repl hLw hLne hLd hLw hLne hvd hns hcon' with ⟨hjl, hjX⟩ | ⟨hjeq, _⟩
      · have hx := @validOcc_append_left L (s.take i) (s.drop i) j hjl
        rw [List.take_append_drop] at hx
        have hjs : validOccB L s j = true := by rw [hx]; exact hjX
        rw [hmin j hj] at hjs
        cases hjs
      · rw [hlen_take] at hjeq
        omega
    right
    refine ⟨i, ?_, ?_⟩
    · rw [hres]
      exact firstValid_of_valid hvalid_t hmin_t
    · rw [hres]
      exact hdrop

theorem reSub_preserve {L v K w t : List Char}
    (hL : goodLibP L) (hvL : goodVer v) (hK : goodLibP K) (hw : goodVer w)
    (hne : L ≠ K) (hns1 : noSuf K L) (hns2 : noSuf L K)
    (hinv : INV L v t) : INV L v (reSub K (replFor K w) t) := by
  obtain ⟨hLne, hLw, hLd⟩ := hL
  obtain ⟨hvne, hvd⟩ := hvL
  obtain ⟨hKne, hKw, hKd⟩ := hK
  obtain ⟨hwne, hwd⟩ := hw
  rcases hf : firstValid K t with _ | i
  · have : reSub K (replFor K w) t = t := by unfold reSub; rw [hf]
    rw [this]
    exact hinv
  · obtain ⟨hvalid, hmin⟩ := firstValid_some hf
    have hile : i ≤ t.length := by
      by_contra hgt
      rw [validOccB_gt_len (by omega)] at hvalid
      cases hvalid
    have hres : reSub K (replFor K w) t = t.take i ++ (K ++ '=' :: '=' :: w) := by
      unfold reSub replFor
      rw [hf, if_neg hwne]
    have hlen_take : (t.take i).length = i := by
      rw [List.length_take]
      omega
    rw [hres]
    left
    apply firstValid_none_of
    intro j
    by_contra hcon
    have hcon' : validOccB L (t.take i ++ (K ++ '=' :: '=' :: w)) j = true := by
      simpa using hcon
    rcases validOcc_repl hLw hLne hLd hKw hKne hwd hns1 hcon' with ⟨hjl, hjX⟩ | ⟨_, hLK⟩
    · have hx := @validOcc_append_left L (t.take i) (t.drop i) j hjl
      rw [List.take_append_drop] at hx
      have hjt : validOccB L t j = true := by rw [hx]; exact hjX
      rcases hinv with hnone | ⟨q, hq, htail⟩
      · rw [firstValid_none hnone j] at hjt
        cases hjt
      · obtain ⟨hqvalid, hqmin⟩ := firstValid_some hq
        have hqle : q ≤ t.length := by
          by_contra hgt
          rw [validOccB_gt_len (by omega)] at hqvalid
          cases hqvalid
        have hlen_takeq : (t.take q).length = q := by
          rw [List.length_take]
          omega
        have hteq : t = t.take q ++ (L ++ '=' :: '=' :: v) := by
          conv_lhs => rw [← List.take_append_drop q t]
          rw [htail]
        have hvalid2 : validOccB K (t.take q ++ (L ++ '=' :: '=' :: v)) i = true := by
          rw [← hteq]
          exact hvalid
        rcases validOcc_repl hKw hKne hKd hLw hLne hvd hns2 hvalid2 with ⟨hil, _⟩ | ⟨_, hKL⟩
        · have hjq : j < q := by
            rw [hlen_takeq] at hil
            rw [hlen_take] at hjl
            omega
          rw [hqmin j hjq] at hjt
          cases hjt
        · exact hne hKL.symm
    · exact hne hLK

theorem subsAll_keeps_inv {L v : List Char} :
    ∀ (opts : List (List Char × List Char)) (t : List Char),
      goodLibP L → goodVer v →
      (∀ p ∈ opts, goodLibP p.1 ∧ goodVer p.2 ∧ p.1 ≠ L ∧ noSuf p.1 L ∧ noSuf L p.1) →
      INV L v t → INV L v (subsAll opts t)
  | [], _, _, _, _, hinv => hinv
  | q :: rest, t, hL, hv, hopts, hinv => by
    have hq := hopts q (List.mem_cons_self _ _)
    have step1 : INV L v (reSub q.1 (replFor q.1 q.2) t) :=
      reSub_preserve hL hv hq.1 hq.2.1 (Ne.symm hq.2.2.1) hq.2.2.2.1 hq.2.2.2.2 hinv
    exact subsAll_keeps_inv rest _ hL hv
      (fun p hp => hopts p (List.mem_cons_of_mem _ hp)) step1

theorem subsAll_establishes :
    ∀ (opts : List (List Char × List Char)) (s : List Char),
      (∀ p ∈ opts, goodLibP p.1 ∧ goodVer p.2) →
      List.Pairwise (fun p q => p.1 ≠ q.1) opts →
      (∀ p ∈ opts, ∀ q ∈ opts, noSuf p.1 q.1) →
      ∀ p ∈ opts, INV p.1 p.2 (subsAll opts s)
  | [], s, _, _, _ => by simp
  | q :: rest, s, hgood, hpw, hns => by
    intro p hp
    have hstep : subsAll (q :: rest) s = subsAll rest (reSub q.1 (replFor q.1 q.2) s) := rfl
    rcases List.mem_cons.mp hp with rfl | hp'
    · rw [hstep]
      have hq := hgood p (List.mem_cons_self _ _)
      have hest : INV p.1 p.2 (reSub p.1 (replFor p.1 p.2) s) :=
        reSub_establish hq.1 hq.2
          (hns p (List.mem_cons_self _ _) p (List.mem_cons_self _ _))
      apply subsAll_keeps_inv rest _ hq.1 hq.2 ?_ hest
      intro r hr
      refine ⟨(hgood r (List.mem_cons_of_mem _ hr)).1,
        (hgood r (List.mem_cons_of_mem _ hr)).2, ?_, ?_, ?_⟩
      · exact Ne.symm ((List.pairwise_cons.mp hpw).1 r hr)
      · exact hns r (List.mem_cons_of_mem _ hr) p (List.mem_cons_self _ _)
      · exact hns p (List.mem_cons_self _ _) r (List.mem_cons_of_mem _ hr)
    · rw [hstep]
      exact subsAll_establishes rest _
        (fun r hr => hgood r (List.mem_cons_of_mem _ hr))
        (List.pairwise_cons.mp hpw).2
        (fun r hr r' hr' => hns r (List.mem_cons_of_mem _ hr) r' (List.mem_cons_of_mem _ hr'))
        p hp'

theorem subsAll_fix :
    ∀ (opts : List (List Char × List Char)) (t : List Char),
      (∀ p ∈ opts, goodVer p.2 ∧ INV p.1 p.2 t) → subsAll opts t = t
  | [], _, _ => rfl
  | q :: rest, t, h => by
    have hq := h q (List.mem_cons_self _ _)
    have hfix : reSub q.1 (replFor q.1 q.2) t = t := reSub_fix hq.1.1 hq.2
    have hstep : subsAll (q :: rest) t = subsAll rest (reSub q.1 (replFor q.1 q.2) t) := rfl
    rw [hstep, hfix]
    exact subsAll_fix rest t (fun p hp => h p (List.mem_cons_of_mem _ hp))

/-- The conditions the four-companion alignment map satisfies. -/
def GoodOpts (opts : List (List Char × List Char)) : Prop :=
  (∀ p ∈ opts, goodLibP p.1 ∧ goodVer p.2) ∧
  List.Pairwise (fun p q => p.1 ≠ q.1) opts ∧
  ∀ p ∈ opts, ∀ q ∈ opts, noSuf p.1 q.1

theorem subsAll_idem {opts : List (List Char × List Char)} (h : GoodOpts opts)
    (s : List Char) : subsAll opts (subsAll opts s) = subsAll opts s := by
  obtain ⟨hgood, hpw, hns⟩ := h
  apply subsAll_fix
  intro p hp
  exact ⟨(hgood p hp).2, subsAll_establishes opts s hgood hpw hns p hp⟩

/-! ### Stripping and comment-splitting lemmas -/

theorem dropWhile_append_stop {p : Char → Bool} {b : Char} (hb : p b = false) :
    ∀ (as bs : List Char), (as ++ b :: bs).dropWhile p = as.dropWhile p ++ b :: bs
  | [], bs => by
    simp [List.dropWhile_cons, hb]
  | a :: as, bs => by
    by_cases ha : p a = true
    · rw [List.cons_append, List.dropWhile_cons, if_pos ha, List.dropWhile_cons, if_pos ha]
      exact dropWhile_append_stop hb as bs
    · rw [List.cons_append, List.dropWhile_cons, if_neg ha, List.dropWhile_cons, if_neg ha,
        List.cons_append]

theorem pyRStrip_append_stop {b : Char} (hb : isSpace b = false) (as bs : List Char) :
    pyRStrip (as ++ b :: bs) = as ++ b :: pyRStrip bs := by
  unfold pyRStrip
  have h1 : (as ++ b :: bs).reverse = bs.reverse ++ b :: as.reverse := by
    simp
  rw [h1, dropWhile_append_stop hb]
  simp

theorem dropWhile_dropWhile (p : Char → Bool) (l : List Char) :
    (l.dropWhile p).dropWhile p = l.dropWhile p := by
  rcases h : l.dropWhile p with _ | ⟨c, t⟩
  · rfl
  · have hc := List.head?_dropWhile_not p l
    rw [h] at hc
    simp only [List.head?_cons] at hc
    rw [List.dropWhile_cons, if_neg (by simp [hc])]

theorem pyRStrip_idem (s : List Char) : pyRStrip (pyRStrip s) = pyRStrip s := by
  unfold pyRStrip
  rw [List.reverse_reverse, dropWhile_dropWhile]

theorem pyRStrip_comment (tail : List Char) :
    pyRStrip (' ' :: ' ' :: '#' :: tail) = ' ' :: ' ' :: '#' :: pyRStrip tail := by
  simpa using pyRStrip_append_stop (by decide) [' ', ' '] tail

theorem pyRStrip_append_spaces {E : List Char} (hE : ∀ c ∈ E, isSpace c = true)
    (A : List Char) : pyRStrip (A ++ E) = pyRStrip A := by
  unfold pyRStrip
  rw [List.reverse_append, List.dropWhile_append_of_pos
    (fun a ha => hE a (List.mem_reverse.mp ha))]

theorem pyLStrip_head {s : List Char} {c : Char} (h : (pyLStrip s).head? = some c) :
    isSpace c = false := by
  have hd := List.head?_dropWhile_not isSpace s
  rw [show s.dropWhile isSpace = pyLStrip s from rfl, h] at hd
  simpa using hd

theorem pyRStrip_last {s : List Char} {c : Char} (h : (pyRStrip s).getLast? = some c) :
    isSpace c = false := by
  have h2 : (pyRStrip s).getLast? = (s.reverse.dropWhile isSpace).head? := by
    unfold pyRStrip
    rw [List.getLast?_eq_head?_reverse, List.reverse_reverse]
  rw [h2] at h
  have hd := List.head?_dropWhile_not isSpace s.reverse
  rw [h] at hd
  simpa using hd

theorem pyRStrip_split (s : List Char) :
    s = pyRStrip s ++ (s.reverse.takeWhile isSpace).reverse := by
  unfold pyRStrip
  conv_lhs => rw [← List.reverse_reverse s,
    ← List.takeWhile_append_dropWhile isSpace s.reverse]
  rw [List.reverse_append]

theorem pyStrip_head {s : List Char} {c : Char} (h : (pyStrip s).head? = some c) :
    isSpace c = false := by
  unfold pyStrip at h
  have hsplit := pyRStrip_split (pyLStrip s)
  have hh : (pyLStrip s).head? = some c := by
    rw [hsplit, List.head?_append, h]
    rfl
  exact pyLStrip_head hh

theorem pyStrip_last {s : List Char} {c : Char} (h : (pyStrip s).getLast? = some c) :
    isSpace c = false := by
  unfold pyStrip at h
  exact pyRStrip_last h

theorem pyLStrip_eq_self {s : List Char}
    (h : ∀ c, s.head? = some c → isSpace c = false) : pyLStrip s = s := by
  rcases s with _ | ⟨c, t⟩
  · rfl
  · unfold pyLStrip
    rw [List.dropWhile_cons, if_neg (by simp [h c rfl])]

theorem pyRStrip_eq_self {s : List Char}
    (h : ∀ c, s.getLast? = some c → isSpace c = false) : pyRStrip s = s := by
  unfold pyRStrip
  have hds : s.reverse.dropWhile isSpace = s.reverse := by
    rcases hr : s.reverse with _ | ⟨c, t⟩
    · rfl
    · have hl : s.getLast? = some c := by
        rw [List.getLast?_eq_head?_reverse, hr]
        rfl
      rw [List.dropWhile_cons, if_neg (by simp [h c hl])]
  rw [hds, List.reverse_reverse]

theorem pyStrip_eq_self {s : List Char}
    (h1 : ∀ c, s.head? = some c → isSpace c = false)
    (h2 : ∀ c, s.getLast? = some c → isSpace c = false) : pyStrip s = s := by
  unfold pyStrip
  rw [pyLStrip_eq_self h1, pyRStrip_eq_self h2]

theorem mem_pyLStrip {s : List Char} {c : Char} (h : c ∈ pyLStrip s) : c ∈ s :=
  (List.dropWhile_sublist _).subset h

theorem mem_pyRStrip {s : List Char} {c : Char} (h : c ∈ pyRStrip s) : c ∈ s := by
  unfold pyRStrip at h
  rw [List.mem_reverse] at h
  exact List.mem_reverse.mp ((List.dropWhile_sublist _).subset h)

theorem mem_pyStrip {s : List Char} {c : Char} (h : c ∈ pyStrip s) : c ∈ s :=
  mem_pyLStrip (mem_pyRStrip h)

theorem splitHash_no_hash : ∀ (s : List Char), '#' ∉ s → splitHash s = (s, none)
  | [], _ => rfl
  | c :: rest, h => by
    have hc : ¬ c = '#' := fun e => h (by rw [e]; exact List.mem_cons_self _ _)
    simp [splitHash, if_neg hc,
      splitHash_no_hash rest (fun m => h (List.mem_cons_of_mem _ m))]

theorem splitHash_hash : ∀ (a : List Char), '#' ∉ a → ∀ (t : List Char),
    splitHash (a ++ '#' :: t) = (a, some t)
  | [], _, t => by simp [splitHash]
  | c :: rest, h, t => by
    have hc : ¬ c = '#' := fun e => h (by rw [e]; exact List.mem_cons_self _ _)
    simp [splitHash, if_neg hc,
      splitHash_hash rest (fun m => h (List.mem_cons_of_mem _ m)) t]

theorem splitHash_spec : ∀ (s : List Char),
    ((splitHash s).2 = none → s = (splitHash s).1 ∧ '#' ∉ (splitHash s).1) ∧
    ∀ t, (splitHash s).2 = some t →
      s = (splitHash s).1 ++ '#' :: t ∧ '#' ∉ (splitHash s).1
  | [] => by
    constructor
    · intro _
      exact ⟨rfl, by simp [splitHash]⟩
    · intro t h
      simp [splitHash] at h
  | c :: rest => by
    by_cases hc : c = '#'
    · subst hc
      constructor
      · intro h
        simp [splitHash] at h
      · intro t h
        simp only [splitHash, if_pos rfl] at h ⊢
        injection h with h
        subst h
        exact ⟨rfl, by simp⟩
    · have IH := splitHash_spec rest
      constructor
      · intro h
        simp only [splitHash, if_neg hc] at h ⊢
        obtain ⟨h1, h2⟩ := IH.1 h
        refine ⟨by rw [← h1], ?_⟩
        intro hm
        rcases List.mem_cons.mp hm with he | hm'
        · exact hc he.symm
        · exact h2 hm'
      · intro t h
        simp only [splitHash, if_neg hc] at h ⊢
        obtain ⟨h1, h2⟩ := IH.2 t h
        refine ⟨by rw [List.cons_append, ← h1], ?_⟩
        intro hm
        rcases List.mem_cons.mp hm with he | hm'
        · exact hc he.symm
        · exact h2 hm'

/-! ### The requirement part stays well-formed under substitution -/

/-- Shape of a non-empty, comment-free, whitespace-trimmed requirement. -/
def NiceReq (s : List Char) : Prop :=
  s ≠ [] ∧ '#' ∉ s ∧ (∀ c, s.head? = some c → isSpace c = false) ∧
  ∀ c, s.getLast? = some c → isSpace c = false

theorem head?_take {s : List Char} {i : Nat} {c : Char} (h : (s.take i).head? = some c) :
    s.head? = some c := by
  match s, i, h with
  | x :: xs, j + 1, h => exact h
  | [], i, h => exact absurd h (by simp)
  | x :: xs, 0, h => exact absurd h (by simp)

theorem head?_mem {s : List Char} {c : Char} (h : s.head? = some c) : c ∈ s := by
  match s, h with
  | x :: xs, h =>
    injection h with h
    subst h
    exact List.mem_cons_self _ _

theorem reSub_nice {L v s : List Char} (hL : goodLibP L) (hv : goodVer v)
    (hn : NiceReq s) : NiceReq (reSub L (replFor L v) s) := by
  obtain ⟨hLne, hLw, _⟩ := hL
  obtain ⟨hvne, hvd⟩ := hv
  obtain ⟨hne, hnh, hhead, hlast⟩ := hn
  rcases hf : firstValid L s with _ | i
  · have heq : reSub L (replFor L v) s = s := by
      unfold reSub
      rw [hf]
    rw [heq]
    exact ⟨hne, hnh, hhead, hlast⟩
  · have heq : reSub L (replFor L v) s = s.take i ++ (L ++ '=' :: '=' :: v) := by
      unfold reSub replFor
      rw [hf, if_neg hvne]
    rw [heq]
    refine ⟨?_, ?_, ?_, ?_⟩
    · intro e
      rcases List.append_eq_nil.mp e with ⟨_, e2⟩
      exact hLne (List.append_eq_nil.mp e2).1
    · intro hm
      rcases List.mem_append.mp hm with hm' | hm'
      · exact hnh (List.take_subset _ _ hm')
      · rcases List.mem_append.mp hm' with hm'' | hm''
        · exact not_hash_of_isWordChar (hLw _ hm'') rfl
        · rcases List.mem_cons.mp hm'' with he | hm3
          · exact absurd he (by decide)
          · rcases List.mem_cons.mp hm3 with he | hm4
            · exact absurd he (by decide)
            · exact not_hash_of_isDotDigit (hvd _ hm4) rfl
    · intro c hc
      rw [List.head?_append] at hc
      rcases ht : (s.take i).head? with _ | c0
      · rw [ht] at hc
        have hc2 : (L ++ '=' :: '=' :: v).head? = some c := by
          rw [← hc]
          rfl
        rw [List.head?_append] at hc2
        rcases hL0 : L.head? with _ | c1
        · exact absurd (List.head?_eq_none_iff.mp hL0) hLne
        · rw [hL0] at hc2
          have hcc : c1 = c := by simpa using hc2
          subst hcc
          exact not_isSpace_of_isWordChar (hLw c1 (head?_mem hL0))
      · rw [ht] at hc
        have hcc : c0 = c := by simpa using hc
        subst hcc
        exact hhead c0 (head?_take ht)
    · intro c hc
      rw [List.getLast?_append_of_ne_nil _ (by simp)] at hc
      rw [List.getLast?_append_of_ne_nil _ (by simp)] at hc
      rw [show ('=' :: '=' :: v) = ['=', '='] ++ v from rfl,
          List.getLast?_append_of_ne_nil _ hvne] at hc
      exact not_isSpace_of_isDotDigit (hvd c (List.mem_of_getLast?_eq_some hc))

theorem subsAll_nice : ∀ (opts : List (List Char × List Char)) (s : List Char),
    (∀ p ∈ opts, goodLibP p.1 ∧ goodVer p.2) → NiceReq s → NiceReq (subsAll opts s)
  | [], _, _, hn => hn
  | q :: rest, s, hg, hn => by
    have hq := hg q (List.mem_cons_self _ _)
    exact subsAll_nice rest _ (fun p hp => hg p (List.mem_cons_of_mem _ hp))
      (reSub_nice hq.1 hq.2 hn)

/-! ### One full pass of the line rewriter is idempotent -/

theorem processLine_eq_none {opts : List (List Char × List Char)} {line : List Char}
    (h : (splitHash (pyStrip line)).2 = none) :
    processLine opts line =
      if pyStrip (splitHash (pyStrip line)).1 = [] then []
      else subsAll opts (pyStrip (splitHash (pyStrip line)).1) := by
  unfold processLine
  rw [h]

theorem processLine_eq_some {opts : List (List Char × List Char)} {line tail : List Char}
    (h : (splitHash (pyStrip line)).2 = some tail) :
    processLine opts line =
      if pyStrip (splitHash (pyStrip line)).1 = [] then pyStrip (' ' :: ' ' :: '#' :: tail)
      else subsAll opts (pyStrip (splitHash (pyStrip line)).1) ++
        pyRStrip (' ' :: ' ' :: '#' :: tail) := by
  unfold processLine
  rw [h]

theorem processLine_subs {opts : List (List Char × List Char)} (hg : GoodOpts opts)
    {t : List Char} (ht : NiceReq t) :
    processLine opts (subsAll opts t) = subsAll opts t := by
  have hS : NiceReq (subsAll opts t) := subsAll_nice opts t hg.1 ht
  obtain ⟨hSne, hSnh, hShead, hSlast⟩ := hS
  have hstrip : pyStrip (subsAll opts t) = subsAll opts t := pyStrip_eq_self hShead hSlast
  have hsplit : splitHash (pyStrip (subsAll opts t)) = (subsAll opts t, none) := by
    rw [hstrip]
    exact splitHash_no_hash _ hSnh
  have h2 : (splitHash (pyStrip (subsAll opts t))).2 = none := by rw [hsplit]
  have h1 : (splitHash (pyStrip (subsAll opts t))).1 = subsAll opts t := by rw [hsplit]
  rw [processLine_eq_none h2, h1, hstrip, if_neg hSne, subsAll_idem hg]

theorem pyStrip_comment (tail : List Char) :
    pyStrip (' ' :: ' ' :: '#' :: tail) = '#' :: pyRStrip tail := by
  unfold pyStrip pyLStrip
  rw [List.dropWhile_cons, if_pos (by decide), List.dropWhile_cons, if_pos (by decide),
      List.dropWhile_cons, if_neg (by decide)]
  simpa using pyRStrip_append_stop (by decide) [] tail

theorem processLine_comment_only (opts : List (List Char × List Char)) (tail : List Char) :
    processLine opts (pyStrip (' ' :: ' ' :: '#' :: tail)) =
      pyStrip (' ' :: ' ' :: '#' :: tail) := by
  rw [pyStrip_comment]
  have hstrip : pyStrip ('#' :: pyRStrip tail) = '#' :: pyRStrip tail := by
    apply pyStrip_eq_self
    · intro c hc
      injection hc with hc
      subst hc
      decide
    · intro c hc
      rcases hrt : pyRStrip tail with _ | ⟨x, xs⟩
      · rw [hrt] at hc
        injection hc with hc
        subst hc
        decide
      · rw [hrt, List.getLast?_cons_cons] at hc
        exact pyRStrip_last (by rw [hrt]; exact hc)
  have hsplit : splitHash (pyStrip ('#' :: pyRStrip tail)) = ([], some (pyRStrip tail)) := by
    rw [hstrip]
    simp [splitHash]
  have h2 : (splitHash (pyStrip ('#' :: pyRStrip tail))).2 = some (pyRStrip tail) := by
    rw [hsplit]
  have h1 : (splitHash (pyStrip ('#' :: pyRStrip tail))).1 = ([] : List Char) := by
    rw [hsplit]
  rw [processLine_eq_some h2, h1,
      if_pos (show pyStrip ([] : List Char) = [] from rfl), pyStrip_comment, pyRStrip_idem]

theorem processLine_with_comment {opts : List (List Char × List Char)} (hg : GoodOpts opts)
    {t : List Char} (ht : NiceReq t) (tail : List Char) :
    processLine opts (subsAll opts t ++ pyRStrip (' ' :: ' ' :: '#' :: tail)) =
      subsAll opts t ++ pyRStrip (' ' :: ' ' :: '#' :: tail) := by
  rw [pyRStrip_comment]
  have hS : NiceReq (subsAll opts t) := subsAll_nice opts t hg.1 ht
  obtain ⟨hSne, hSnh, hShead, hSlast⟩ := hS
  have hOs : pyStrip (subsAll opts t ++ ' ' :: ' ' :: '#' :: pyRStrip tail) =
      subsAll opts t ++ ' ' :: ' ' :: '#' :: pyRStrip tail := by
    apply pyStrip_eq_self
    · intro c hc
      rw [List.head?_append] at hc
      rcases hh : (subsAll opts t).head? with _ | c0
      · exact absurd (List.head?_eq_none_iff.mp hh) hSne
      · rw [hh] at hc
        have hcc : c0 = c := by simpa using hc
        subst hcc
        exact hShead c0 hh
    · intro c hc
      rw [List.getLast?_append_of_ne_nil _ (by simp)] at hc
      rcases hrt : pyRStrip tail with _ | ⟨x, xs⟩
      · rw [hrt] at hc
        have hcs : c = '#' := by
          rw [show ((' ' :: ' ' :: '#' :: ([] : List Char)).getLast?) = some '#' from rfl]
            at hc
          injection hc with hc
          exact hc.symm
        subst hcs
        decide
      · rw [hrt, List.getLast?_cons_cons, List.getLast?_cons_cons,
          List.getLast?_cons_cons] at hc
        exact pyRStrip_last (by rw [hrt]; exact hc)
  have hnh2 : '#' ∉ subsAll opts t ++ [' ', ' '] := by
    intro hm
    rcases List.mem_append.mp hm with hm' | hm'
    · exact hSnh hm'
    · simp at hm'
  have hOshape : subsAll opts t ++ ' ' :: ' ' :: '#' :: pyRStrip tail =
      (subsAll opts t ++ [' ', ' ']) ++ '#' :: pyRStrip tail := by
    rw [List.append_assoc]
    rfl
  have hsplit : splitHash (subsAll opts t ++ ' ' :: ' ' :: '#' :: pyRStrip tail) =
      (subsAll opts t ++ [' ', ' '], some (pyRStrip tail)) := by
    rw [hOshape]
    exact splitHash_hash _ hnh2 _
  have hreq2 : pyStrip (subsAll opts t ++ [' ', ' ']) = subsAll opts t := by
    unfold pyStrip
    rw [pyLStrip_eq_self ?_]
    · rw [pyRStrip_append_spaces (by decide) _]
      exact pyRStrip_eq_self hSlast
    · intro c hc
      rw [List.head?_append] at hc
      rcases hh : (subsAll opts t).head? with _ | c0
      · exact absurd (List.head?_eq_none_iff.mp hh) hSne
      · rw [hh] at hc
        have hcc : c0 = c := by simpa using hc
        subst hcc
        exact hShead c0 hh
  have h2 : (splitHash (pyStrip (subsAll opts t ++ ' ' :: ' ' :: '#' :: pyRStrip tail))).2 =
      some (pyRStrip tail) := by
    rw [hOs, hsplit]
  have h1 : (splitHash (pyStrip (subsAll opts t ++ ' ' :: ' ' :: '#' :: pyRStrip tail))).1 =
      subsAll opts t ++ [' ', ' '] := by
    rw [hOs, hsplit]
  rw [processLine_eq_some h2, h1, hreq2, if_neg hSne, subsAll_idem hg,
      pyRStrip_comment, pyRStrip_idem]

theorem processLine_idem {opts : List (List Char × List Char)} (hg : GoodOpts opts)
    (line : List Char) :
    processLine opts (processLine opts line) = processLine opts line := by
  rcases h2 : (splitHash (pyStrip line)).2 with _ | tail
  · rw [processLine_eq_none h2]
    by_cases hreq : pyStrip (splitHash (pyStrip line)).1 = []
    · rw [if_pos hreq]
      rfl
    · rw [if_neg hreq]
      obtain ⟨_, hnh⟩ := (splitHash_spec (pyStrip line)).1 h2
      have hreqn : NiceReq (pyStrip (splitHash (pyStrip line)).1) := by
        refine ⟨hreq, ?_, ?_, ?_⟩
        · intro hm
          exact hnh (mem_pyStrip hm)
        · intro c hc
          exact pyStrip_head hc
        · intro c hc
          exact pyStrip_last hc
      exact processLine_subs hg hreqn
  · rw [processLine_eq_some h2]
    by_cases hreq : pyStrip (splitHash (pyStrip line)).1 = []
    · rw [if_pos hreq]
      exact processLine_comment_only opts tail
    · rw [if_neg hreq]
      obtain ⟨_, hnh⟩ := (splitHash_spec (pyStrip line)).2 tail h2
      have hreqn : NiceReq (pyStrip (splitHash (pyStrip line)).1) := by
        refine ⟨hreq, ?_, ?_, ?_⟩
        · intro hm
          exact hnh (mem_pyStrip hm)
        · intro c hc
          exact pyStrip_head hc
        · intro c hc
          exact pyStrip_last hc
      exact processLine_with_comment hg hreqn tail

/-! ### The alignment map produced by the resolver is well-formed -/

theorem goodLibP_of (L : List Char) (h1 : L ≠ []) (h2 : ∀ c ∈ L, isWordChar c = true)
    (h3 : ∀ c ∈ L.take 1, isDotDigit c = false) : goodLibP L := by
  refine ⟨h1, h2, ?_⟩
  intro c hc
  apply h3
  rcases L with _ | ⟨x, xs⟩
  · cases hc
  · injection hc with hc
    subst hc
    exact List.mem_cons_self _ _

theorem renderVer_good (a b c : Nat) : goodVer (renderVer a b c) :=
  ⟨renderVer_ne_nil a b c, renderVer_dotdigit a b c⟩

theorem noSuf_of_len {K L : List Char} (h : L.length ≤ K.length) : noSuf K L := by
  intro A hA e
  have hlen := congrArg List.length e
  rw [List.length_append] at hlen
  have hA1 : 1 ≤ A.length := by
    rcases A with _ | _
    · exact absurd rfl hA
    · exact Nat.succ_le_succ (Nat.zero_le _)
  omega

theorem noSuf_of_drop {K L : List Char} (hlen : K.length < L.length)
    (hne : L.drop (L.length - K.length) ≠ K) : noSuf K L := by
  intro A hA e
  apply hne
  have hlen2 := congrArg List.length e
  rw [List.length_append] at hlen2
  have h2 : L.drop A.length = K := by
    rw [← e]
    exact List.drop_left A K
  rw [show L.length - K.length = A.length from by omega]
  exact h2

theorem determineTVCore_ok_good {s out : List Char} (h : determineTVCore s = .ok out) :
    goodVer out := by
  rcases hx : extractRun s with _ | run
  · rw [show determineTVCore s = .error (.parseError "no version match".data) from by
      simp only [determineTVCore, hx]] at h
    cases h
  · rcases hlk : lookupExc tvExc run with _ | v
    · rcases hp : parseVer3 run with _ | trip
      · rw [show determineTVCore s =
            .error (.parseError "not a three-component version".data) from by
          simp only [determineTVCore, hx, hlk, hp]] at h
        cases h
      · obtain ⟨maj, mi, fx⟩ := trip
        have hcore : determineTVCore s =
            (if maj = 1 then .ok (renderVer 0 (mi + 1) fx)
             else if maj = 2 then .ok (renderVer 0 (mi + 15) fx)
             else .error (.invalidVersion ("Invalid torch version: ".data ++ s))) := by
          simp only [determineTVCore, hx, hlk, hp]
        rw [hcore] at h
        by_cases h1 : maj = 1
        · rw [if_pos h1] at h
          injection h with h
          subst h
          exact renderVer_good 0 (mi + 1) fx
        · rw [if_neg h1] at h
          by_cases hb2 : maj = 2
          · rw [if_pos hb2] at h
            injection h with h
            subst h
            exact renderVer_good 0 (mi + 15) fx
          · rw [if_neg hb2] at h
            cases h
    · have hcore : determineTVCore s = .ok v := by
        simp only [determineTVCore, hx, hlk]
      rw [hcore] at h
      injection h with h
      subst h
      have hm := lookupExc_mem tvExc run v hlk
      simp only [tvExc, List.mem_cons, List.not_mem_nil, or_false, Prod.mk.injEq] at hm
      rcases hm with ⟨_, rfl⟩ | ⟨_, rfl⟩ | ⟨_, rfl⟩ | ⟨_, rfl⟩ | ⟨_, rfl⟩ | ⟨_, rfl⟩ <;>
        exact ⟨by decide, by decide⟩

theorem determineTTCore_ok_good {s out : List Char} (h : determineTTCore s = .ok out) :
    goodVer out := by
  rcases hx : extractRun s with _ | run
  · rw [show determineTTCore s = .error (.parseError "no version match".data) from by
      simp only [determineTTCore, hx]] at h
    cases h
  · rcases hlk : lookupExc ttExc run with _ | v
    · rcases hp : parseVer3 run with _ | trip
      · rw [show determineTTCore s =
            .error (.parseError "not a three-component version".data) from by
          simp only [determineTTCore, hx, hlk, hp]] at h
        cases h
      · obtain ⟨maj, mi, fx⟩ := trip
        have hcore : determineTTCore s =
            (if maj = 1 then .ok (renderVer 0 (mi + 1) fx)
             else if maj = 2 then
               if 3 ≤ mi then .ok (renderVer 0 18 0) else .ok (renderVer 0 (mi + 15) fx)
             else .error (.invalidVersion ("Invalid torch version: ".data ++ s))) := by
          simp only [determineTTCore, hx, hlk, hp]
        rw [hcore] at h
        by_cases h1 : maj = 1
        · rw [if_pos h1] at h
          injection h with h
          subst h
          exact renderVer_good 0 (mi + 1) fx
        · rw [if_neg h1] at h
          by_cases hb2 : maj = 2
          · rw [if_pos hb2] at h
            by_cases h3 : 3 ≤ mi
            · rw [if_pos h3] at h
              injection h with h
              subst h
              exact renderVer_good 0 18 0
            · rw [if_neg h3] at h
              injection h with h
              subst h
              exact renderVer_good 0 (mi + 15) fx
          · rw [if_neg hb2] at h
            cases h
    · have hcore : determineTTCore s = .ok v := by
        simp only [determineTTCore, hx, hlk]
      rw [hcore] at h
      injection h with h
      subst h
      have hm := lookupExc_mem ttExc run v hlk
      simp only [ttExc, List.mem_cons, List.not_mem_nil, or_false, Prod.mk.injEq] at hm
      rcases hm with ⟨_, rfl⟩ | ⟨_, rfl⟩ | ⟨_, rfl⟩ <;> exact ⟨by decide, by decide⟩

theorem determineTACore_ok_good {s out : List Char} (h : determineTACore s = .ok out) :
    goodVer out := by
  rcases hx : extractRun s with _ | run
  · rw [show determineTACore s = .error (.parseError "no version match".data) from by
      simp only [determineTACore, hx]] at h
    cases h
  · rcases hlk : lookupExc taExc run with _ | v
    · rcases hp : parseVer3 run with _ | trip
      · rw [show determineTACore s =
            .error (.parseError "not a three-component version".data) from by
          simp only [determineTACore, hx, hlk, hp]] at h
        cases h
      · obtain ⟨maj, mi, fx⟩ := trip
        have hcore : determineTACore s =
            .ok (renderVer (if maj = 1 then 0 else maj) mi fx) := by
          simp only [determineTACore, hx, hlk, hp]
        rw [hcore] at h
        injection h with h
        subst h
        exact renderVer_good _ mi fx
    · have hcore : determineTACore s = .ok v := by
        simp only [determineTACore, hx, hlk]
      rw [hcore] at h
      injection h with h
      subst h
      have hm := lookupExc_mem taExc run v hlk
      simp only [taExc, List.mem_cons, List.not_mem_nil, or_false, Prod.mk.injEq] at hm
      obtain ⟨_, rfl⟩ := hm
      exact ⟨by decide, by decide⟩

theorem goodOpts_concrete {ver tv tt ta : List Char}
    (h1 : goodVer ver) (h2 : goodVer tv) (h3 : goodVer tt) (h4 : goodVer ta) :
    GoodOpts [("torch".data, ver), ("torchvision".data, tv),
              ("torchtext".data, tt), ("torchaudio".data, ta)] := by
  have gl1 : goodLibP "torch".data := goodLibP_of _ (by decide) (by decide) (by decide)
  have gl2 : goodLibP "torchvision".data := goodLibP_of _ (by decide) (by decide) (by decide)
  have gl3 : goodLibP "torchtext".data := goodLibP_of _ (by decide) (by decide) (by decide)
  have gl4 : goodLibP "torchaudio".data := goodLibP_of _ (by decide) (by decide) (by decide)
  refine ⟨?_, ?_, ?_⟩
  · intro p hp
    simp only [List.mem_cons, List.not_mem_nil, or_false] at hp
    rcases hp with rfl | rfl | rfl | rfl
    · exact ⟨gl1, h1⟩
    · exact ⟨gl2, h2⟩
    · exact ⟨gl3, h3⟩
    · exact ⟨gl4, h4⟩
  · rw [List.pairwise_cons]
    refine ⟨?_, ?_⟩
    · intro q hq
      simp only [List.mem_cons, List.not_mem_nil, or_false] at hq
      rcases hq with rfl | rfl | rfl
      · exact (by decide : "torch".data ≠ "torchvision".data)
      · exact (by decide : "torch".data ≠ "torchtext".data)
      · exact (by decide : "torch".data ≠ "torchaudio".data)
    · rw [List.pairwise_cons]
      refine ⟨?_, ?_⟩
      · intro q hq
        simp only [List.mem_cons, List.not_mem_nil, or_false] at hq
        rcases hq with rfl | rfl
        · exact (by decide : "torchvision".data ≠ "torchtext".data)
        · exact (by decide : "torchvision".data ≠ "torchaudio".data)
      · rw [List.pairwise_cons]
        refine ⟨?_, ?_⟩
        · intro q hq
          simp only [List.mem_cons, List.not_mem_nil, or_false] at hq
          subst hq
          exact (by decide : "torchtext".data ≠ "torchaudio".data)
        · exact List.pairwise_singleton _ _
  · intro p hp q hq
    simp only [List.mem_cons, List.not_mem_nil, or_false] at hp hq
    rcases hp with rfl | rfl | rfl | rfl <;> rcases hq with rfl | rfl | rfl | rfl
    · exact (noSuf_of_len (by decide) : noSuf "torch".data "torch".data)
    · exact (noSuf_of_drop (by decide) (by decide) : noSuf "torch".data "torchvision".data)
    · exact (noSuf_of_drop (by decide) (by decide) : noSuf "torch".data "torchtext".data)
    · exact (noSuf_of_drop (by decide) (by decide) : noSuf "torch".data "torchaudio".data)
    · exact (noSuf_of_len (by decide) : noSuf "torchvision".data "torch".data)
    · exact (noSuf_of_len (by decide) : noSuf "torchvision".data "torchvision".data)
    · exact (noSuf_of_len (by decide) : noSuf "torchvision".data "torchtext".data)
    · exact (noSuf_of_len (by decide) : noSuf "torchvision".data "torchaudio".data)
    · exact (noSuf_of_len (by decide) : noSuf "torchtext".data "torch".data)
    · exact (noSuf_of_drop (by decide) (by decide) :
        noSuf "torchtext".data "torchvision".data)
    · exact (noSuf_of_len (by decide) : noSuf "torchtext".data "torchtext".data)
    · exact (noSuf_of_drop (by decide) (by decide) :
        noSuf "torchtext".data "torchaudio".data)
    · exact (noSuf_of_len (by decide) : noSuf "torchaudio".data "torch".data)
    · exact (noSuf_of_drop (by decide) (by decide) :
        noSuf "torchaudio".data "torchvision".data)
    · exact (noSuf_of_len (by decide) : noSuf "torchaudio".data "torchtext".data)
    · exact (noSuf_of_len (by decide) : noSuf "torchaudio".data "torchaudio".data)

theorem findLatest_goodOpts {s : List Char} {opts : List (List Char × List Char)}
    (h : findLatestCore s = .ok opts) : GoodOpts opts := by
  rcases hx : extractRun s with _ | run
  · rw [show findLatestCore s = .error (.parseError "no version match".data) from by
      simp only [findLatestCore, hx]] at h
    cases h
  · rw [findLatestCore_some hx] at h
    rcases htv : determineTVCore (stripDot run) with e | tv <;> rw [htv] at h
    · simp [Except.bind] at h
    · simp only [Except.bind] at h
      rcases htt : determineTTCore (stripDot run) with e | tt <;> rw [htt] at h
      · simp [Except.bind] at h
      · simp only [Except.bind] at h
        rcases hta : determineTACore (stripDot run) with e | ta <;> rw [hta] at h
        · simp [Except.bind] at h
        · simp only [Except.bind] at h
          injection h with h
          subst h
          have hrunspec := extractRun_spec s run hx
          have hverne : stripDot run ≠ [] := by
            intro e
            rw [e] at htv
            simp [determineTVCore, extractRun] at htv
          have hverd : ∀ c ∈ stripDot run, isDotDigit c = true := fun c hc =>
            hrunspec.2 c (stripDot_sub run c hc)
          exact goodOpts_concrete ⟨hverne, hverd⟩ (determineTVCore_ok_good htv)
            (determineTTCore_ok_good htt) (determineTACore_ok_good hta)

theorem optsL_roundtrip (l : List (List Char × List Char)) :
    optsL (l.map fun p => (String.mk p.1, String.mk p.2)) = l := by
  induction l with
  | nil => rfl
  | cons p t ih => exact congrArg (List.cons p) ih

/-- C5: `adjust` is idempotent for a fixed torch version: if a first pass over
a requirements manifest succeeds and yields `out`, running `adjust` again on
`out` with the same version succeeds and returns `out` unchanged (stated for
manifests whose entries are single lines, i.e. contain no newline
character). -/
theorem claim_c5 (lines out : List String) (v : String)
    (hnl : ∀ l ∈ lines, '\n' ∉ l.data)
    (h : adjust lines v = .ok out) : adjust out v = .ok out := by
  rcases hfl : findLatestCore v.data with e | copts
  · rw [show adjust lines v = .error e from by
      simp only [adjust, find_latest, hfl, Except.map]] at h
    cases h
  · have hg := findLatest_goodOpts hfl
    have hfind : find_latest v =
        .ok (copts.map fun p => (String.mk p.1, String.mk p.2)) := by
      simp only [find_latest, hfl, Except.map]
    have hadj : ∀ ls : List String, adjust ls v =
        .ok (ls.map fun r => String.mk (processLine copts r.data)) := by
      intro ls
      simp only [adjust, hfind, Except.map, optsL_roundtrip]
    rw [hadj] at h
    injection h with h
    subst h
    rw [hadj]
    refine congrArg Except.ok ?_
    rw [List.map_map]
    refine List.map_congr_left fun r hr => ?_
    exact congrArg String.mk (processLine_idem hg r.data)

theorem claim_c5_witness :
    ((∀ l ∈ (["torchvision >=0.13.0, <0.16.0  # sample # comment",
              "gym[classic_control] >=0.17.0, <0.27.0"] : List String),
        '\n' ∉ l.data) ∧
      adjust ["torchvision >=0.13.0, <0.16.0  # sample # comment",
              "gym[classic_control] >=0.17.0, <0.27.0"] "1.10.0" =
        .ok ["torchvision==0.11.1  # sample # comment",
             "gym[classic_control] >=0.17.0, <0.27.0"]) ∧
    adjust ["torchvision==0.11.1  # sample # comment",
            "gym[classic_control] >=0.17.0, <0.27.0"] "1.10.0" =
      .ok ["torchvision==0.11.1  # sample # comment",
           "gym[classic_control] >=0.17.0, <0.27.0"] :=
  ⟨⟨by decide, by rfl⟩,
    claim_c5 ["torchvision >=0.13.0, <0.16.0  # sample # comment",
              "gym[classic_control] >=0.17.0, <0.27.0"]
      ["torchvision==0.11.1  # sample # comment",
       "gym[classic_control] >=0.17.0, <0.27.0"] "1.10.0" (by decide) (by rfl)⟩
